import Mathlib

/-!
Verification of the chan180-utils utility library.

Shallow embedding conventions:
* JavaScript numbers are modelled as exact rationals (`ℚ`) or integers (`ℤ`);
  `NaN` and the infinities are explicit constructors where a code path
  distinguishes them.  Numbers flowing through the JSON codec are carried as
  the exact canonical decimals they print as (`JsonNumber`).
* Wall-clock reads (`Date.now()`, local midnight, day of week, day of month)
  are fields of an explicit `Clock` value passed to the embedded functions.
* Code that may throw is embedded in `Except`; a JavaScript `try/catch`
  becomes a `match` on the `Except` value.
* Platform randomness (`crypto.getRandomValues`) is an explicit stream of
  drawn 32-bit words.
-/

namespace Chan180

/-! ## Time: `dateTimePeriods` (enum) and `dateTimePeriodParser` -/

/-- The `PeriodLengthInDays` enum of `dateTimePeriods`.  Its nine members and
their numeric codes are exactly those of the source; there is no member
`Three`. -/
inductive PeriodLengthInDays where
  | AllTime
  | Custom
  | One
  | Seven
  | Thirty
  | ThisWeek
  | ThisMonth
  | ThreeMonths
  | Today
deriving DecidableEq, Repr

/-- Numeric value of each enum member, as declared in `dateTimePeriods`. -/
def PeriodLengthInDays.code : PeriodLengthInDays → ℤ
  | .AllTime => -1
  | .Custom => 0
  | .One => 1
  | .Seven => 7
  | .Thirty => 30
  | .ThisWeek => 77
  | .ThisMonth => 33
  | .ThreeMonths => 90
  | .Today => 11

/-- All members of the enum. -/
def PeriodLengthInDays.members : List PeriodLengthInDays :=
  [.AllTime, .Custom, .One, .Seven, .Thirty, .ThisWeek, .ThisMonth, .ThreeMonths, .Today]

/-- The numeric codes of all enum members. -/
def periodEnumCodes : List ℤ := PeriodLengthInDays.members.map PeriodLengthInDays.code

/-- `calculatePeriodBoundaries` writes `PeriodLengthInDays.Three` in its
fixed-lookback list, but the enum declares no member `Three`; in JavaScript
the property access evaluates to `undefined`, modelled here as `none`. -/
def threeAccess : Option ℤ := none

/-- The array
`[PeriodLengthInDays.One, PeriodLengthInDays.Three, PeriodLengthInDays.Seven,
PeriodLengthInDays.Thirty, PeriodLengthInDays.ThreeMonths]` whose
`includes(fixedPeriod)` test selects the fixed-lookback branch.  Entries are
`Option ℤ` because the `Three` access is `undefined` (see `threeAccess`). -/
def fixedLookbackCodes : List (Option ℤ) :=
  [some PeriodLengthInDays.One.code,
   threeAccess,
   some PeriodLengthInDays.Seven.code,
   some PeriodLengthInDays.Thirty.code,
   some PeriodLengthInDays.ThreeMonths.code]

/-- The enum members that actually take the fixed-lookback branch of
`calculatePeriodBoundaries`. -/
def fixedLookbackMembers : List PeriodLengthInDays :=
  PeriodLengthInDays.members.filter (fun v => fixedLookbackCodes.contains (some v.code))

/-- One wall-clock read: epoch milliseconds of now (`Date.now()`), epoch
milliseconds of local midnight of the current day
(`new Date().setHours(0, 0, 0, 0)`), the local day of week
(`new Date().getDay()`, Sunday = 0) and day of month
(`new Date().getDate()`). -/
structure Clock where
  nowMs : ℤ
  midnightMs : ℤ
  dayOfWeek : ℤ
  dayOfMonth : ℤ

/-- Result record of `calculatePeriodBoundaries`.  The source field `end` is a
Lean keyword, so it is written `«end»` here. -/
@[ext]
structure IPeriodBoundaries where
  start : ℚ
  «end» : ℚ
deriving DecidableEq, Repr

/-- `_nowInSeconds`: `Date.now() / 1000` (exact rational arithmetic). -/
def nowInSeconds (c : Clock) : ℚ := (c.nowMs : ℚ) / 1000

/-- `_todaySeconds`: seconds elapsed since local midnight. -/
def todaySeconds (c : Clock) : ℚ := nowInSeconds c - (c.midnightMs : ℚ) / 1000

/-- `_thisWeekSeconds`: seconds elapsed since local midnight of the most
recent Monday; `getDay() || 7` turns Sunday (0, falsy) into 7. -/
def thisWeekSeconds (c : Clock) : ℚ :=
  let dayOfWeek : ℤ := if c.dayOfWeek = 0 then 7 else c.dayOfWeek
  ((dayOfWeek - 1 : ℤ) : ℚ) * 24 * 60 * 60 + todaySeconds c

/-- `_thisMonthSeconds`: seconds elapsed since local midnight of the first of
the month. -/
def thisMonthSeconds (c : Clock) : ℚ :=
  ((c.dayOfMonth - 1 : ℤ) : ℚ) * 24 * 60 * 60 + todaySeconds c

/-- `calculatePeriodBoundaries` of `dateTimePeriodParser`: converts the
numeric value of a relative-period selector into absolute start and end
timestamps in milliseconds.  Internal arithmetic is in seconds, the result is
scaled by 1000 at the end, exactly as in the source. -/
def calculatePeriodBoundaries (c : Clock) (fixedPeriod : ℤ) : IPeriodBoundaries :=
  let now := nowInSeconds c
  -- initial value matches All Time
  let result : IPeriodBoundaries :=
    -- One, Seven, 30 days or Three months
    if fixedLookbackCodes.contains (some fixedPeriod) then
      ⟨now - (fixedPeriod : ℚ) * 24 * 60 * 60, now⟩
    -- Today
    else if fixedPeriod = PeriodLengthInDays.Today.code then
      ⟨now - todaySeconds c, now⟩
    -- This Week
    else if fixedPeriod = PeriodLengthInDays.ThisWeek.code then
      ⟨now - thisWeekSeconds c, now⟩
    -- This Month
    else if fixedPeriod = PeriodLengthInDays.ThisMonth.code then
      ⟨now - thisMonthSeconds c, now⟩
    -- Custom Period
    else if fixedPeriod = PeriodLengthInDays.Custom.code then
      ⟨now, now⟩
    -- All Time
    else if fixedPeriod = PeriodLengthInDays.AllTime.code then
      ⟨0, now⟩
    else
      ⟨0, now⟩
  ⟨result.start * 1000, result.«end» * 1000⟩

/-! ## Characters and decimal numerals

Shared helpers for the JSON codec, `String(number)` conversion and
`encodeURIComponent`.  Braces and a few other characters are written via
`Char.ofNat` codes. -/

/-- The double-quote character (code 34). -/
def quoteChar : Char := Char.ofNat 34

/-- The backslash character (code 92). -/
def backslashChar : Char := Char.ofNat 92

/-- The opening-brace character (code 123). -/
def lbraceChar : Char := Char.ofNat 123

/-- The closing-brace character (code 125). -/
def rbraceChar : Char := Char.ofNat 125

/-- The decimal digit character for `d < 10`. -/
def digitChar (d : ℕ) : Char := Char.ofNat (48 + d)

/-- Whether `c` is a decimal digit. -/
def isDigitChar (c : Char) : Bool := 48 ≤ c.toNat && c.toNat ≤ 57

/-- Numeric value of a decimal digit character. -/
def charDigitVal (c : Char) : ℕ := c.toNat - 48

/-- Decimal digits of a natural number, most significant first (`String(n)`
for a natural; also the JSON integer numeral). -/
def natToChars (n : ℕ) : List Char :=
  if n < 10 then [digitChar n]
  else natToChars (n / 10) ++ [digitChar (n % 10)]
termination_by n
decreasing_by exact Nat.div_lt_self (by omega) (by omega)

/-- Decimal numeral of an integer, with a leading minus sign when negative
(the output of JavaScript `String(n)` and `JSON.stringify(n)` for safe
integers). -/
def intToChars (n : ℤ) : List Char :=
  if n < 0 then '-' :: natToChars n.natAbs else natToChars n.toNat

/-- Value of a most-significant-first digit-character list. -/
def parseNatDigits (l : List Char) : ℕ := l.foldl (fun a c => 10 * a + charDigitVal c) 0

/-- Lowercase hexadecimal digit character for `d < 16`. -/
def hexDigitChar (d : ℕ) : Char := if d < 10 then digitChar d else Char.ofNat (87 + d)

/-- Whether `c` is a hexadecimal digit (either case). -/
def isHexDigitChar (c : Char) : Bool :=
  isDigitChar c || (97 ≤ c.toNat && c.toNat ≤ 102) || (65 ≤ c.toNat && c.toNat ≤ 70)

/-- Numeric value of a hexadecimal digit character. -/
def hexVal (c : Char) : ℕ :=
  if isDigitChar c then c.toNat - 48
  else if 97 ≤ c.toNat then c.toNat - 87
  else c.toNat - 55

/-! ## JSON values and the platform JSON codec

The JSON-safe fragment of JavaScript values: `null`, booleans, finite
numbers, strings, arrays and plain objects.  A finite number is carried as
the exact decimal `man / 10 ^ fexp` of its printed numeral: the platform
prints a finite number as one decimal numeral (ECMA `Number::toString`),
and the numeral grammar of `JSON.parse` reads a decimal numeral back, so
the embedding works with these decimals directly, in the canonical
(shortest-mantissa) form that is in one-to-one correspondence with the
printed numerals. -/

/-- A finite JSON number as the exact decimal it prints to: the value is
`man / 10 ^ fexp`, with `fexp` the number of fractional digits of the
mantissa. -/
structure JsonNumber where
  man : ℤ
  fexp : ℕ
deriving DecidableEq, Repr

/-- Canonical decimal form — the form the platform printer produces: an
integer is carried with scale zero, and a proper fraction has a mantissa
not ending in the digit zero.  Every finite number has exactly one
canonical form. -/
def JsonNumber.canonical (n : JsonNumber) : Bool :=
  n.fexp == 0 || n.man % 10 != 0

/-- Trailing-zero decomposition of a natural number: `stripTrailingZeros a`
is the pair `(d, z)` with `a = d * 10 ^ z` and, for `a ≠ 0`, `d` not a
multiple of ten. -/
def stripTrailingZeros (a : ℕ) : ℕ × ℕ :=
  if h : a ≠ 0 ∧ a % 10 = 0 then
    let p := stripTrailingZeros (a / 10)
    (p.1, p.2 + 1)
  else (a, 0)
termination_by a
decreasing_by exact Nat.div_lt_self (Nat.pos_of_ne_zero h.1) (by omega)

/-- A JSON value.  Object fields are kept in insertion order, as
`JSON.stringify` and `JSON.parse` preserve it. -/
inductive Json where
  | null
  | bool (b : Bool)
  | num (n : JsonNumber)
  | str (s : String)
  | arr (elements : List Json)
  | obj (fields : List (String × Json))
deriving Repr

/-- The `\u00xx` escape of a control character with code `n`. -/
def uEscape (n : ℕ) : List Char :=
  backslashChar :: 'u' :: '0' :: '0' :: hexDigitChar (n / 16) :: [hexDigitChar (n % 16)]

/-- `JSON.stringify` escaping of one string character: quote, backslash and
the named control escapes get two-character escapes, the remaining control
characters get a `\u00xx` escape, everything else is emitted verbatim. -/
def escapeChar (c : Char) : List Char :=
  if c = quoteChar then [backslashChar, quoteChar]
  else if c = backslashChar then [backslashChar, backslashChar]
  else if c = Char.ofNat 8 then [backslashChar, 'b']
  else if c = Char.ofNat 9 then [backslashChar, 't']
  else if c = Char.ofNat 10 then [backslashChar, 'n']
  else if c = Char.ofNat 12 then [backslashChar, 'f']
  else if c = Char.ofNat 13 then [backslashChar, 'r']
  else if c.toNat < 32 then uEscape c.toNat
  else [c]

/-- The quoted, escaped form of a JSON string. -/
def serStrChars (s : List Char) : List Char :=
  quoteChar :: s.flatMap escapeChar ++ [quoteChar]

/-- The characters of the `null` keyword. -/
def nullChars : List Char := 'n' :: 'u' :: 'l' :: ['l']

/-- The characters of the `true` keyword. -/
def trueChars : List Char := 't' :: 'r' :: 'u' :: ['e']

/-- The characters of the `false` keyword. -/
def falseChars : List Char := 'f' :: 'a' :: 'l' :: 's' :: ['e']

/-- ECMA `Number::toString` (radix 10) layout of the positive decimal
`a / 10 ^ fexp`: with `ds` the digits of the shortest decimal mantissa and
`npos` the position of the decimal point, the numeral is an integer, a
fixed-point fraction, a sub-one fraction, or an exponent form. -/
def serNumBody (a fexp : ℕ) : List Char :=
  let p := stripTrailingZeros a
  let ds := natToChars p.1
  let npos : ℤ := (ds.length : ℤ) + (p.2 : ℤ) - (fexp : ℤ)
  if (ds.length : ℤ) ≤ npos ∧ npos ≤ 21 then
    ds ++ List.replicate (npos - ds.length).toNat '0'
  else if 0 < npos ∧ npos ≤ 21 then
    ds.take npos.toNat ++ '.' :: ds.drop npos.toNat
  else if -6 < npos ∧ npos ≤ 0 then
    '0' :: '.' :: (List.replicate (-npos).toNat '0' ++ ds)
  else
    (if ds.length = 1 then ds else ds.take 1 ++ '.' :: ds.drop 1)
      ++ 'e' :: (if npos ≤ 0 then '-' :: natToChars (1 - npos).toNat
                 else '+' :: natToChars (npos - 1).toNat)

/-- `String(number)` / `JSON.stringify` numeral of a finite number: zero
prints as `0`, a negative number prints a minus sign before the layout of
its absolute value. -/
def serNumChars (n : JsonNumber) : List Char :=
  if n.man = 0 then ['0']
  else if n.man < 0 then '-' :: serNumBody n.man.natAbs n.fexp
  else serNumBody n.man.natAbs n.fexp

mutual

/-- `JSON.stringify` (compact form, no indent argument) on the JSON-safe
fragment. -/
def serJson : Json → List Char
  | .null => nullChars
  | .bool true => trueChars
  | .bool false => falseChars
  | .num n => serNumChars n
  | .str s => serStrChars s.data
  | .arr l => '[' :: serElems l ++ [']']
  | .obj l => lbraceChar :: serFields l ++ [rbraceChar]

/-- Comma-separated serialization of array elements. -/
def serElems : List Json → List Char
  | [] => []
  | [j] => serJson j
  | j :: rest => serJson j ++ ',' :: serElems rest

/-- Comma-separated serialization of object fields. -/
def serFields : List (String × Json) → List Char
  | [] => []
  | [(k, v)] => serStrChars k.data ++ ':' :: serJson v
  | (k, v) :: rest => serStrChars k.data ++ ':' :: serJson v ++ ',' :: serFields rest

end

/-- Whether `c` is JSON whitespace. -/
def jsonWsChar (c : Char) : Bool :=
  c = ' ' || c = Char.ofNat 9 || c = Char.ofNat 10 || c = Char.ofNat 13

/-- Drop leading JSON whitespace. -/
def skipWs (cs : List Char) : List Char := cs.dropWhile jsonWsChar

/-- Decode one escape sequence after the backslash, returning the decoded
character and the remaining input.  Surrogate-pair `\u` escapes are combined;
a lone surrogate escape is refused since Lean characters are Unicode scalar
values. -/
def parseEscape : List Char → Option (Char × List Char)
  | [] => none
  | e :: cs2 =>
    if e = quoteChar then some (quoteChar, cs2)
    else if e = backslashChar then some (backslashChar, cs2)
    else if e = '/' then some ('/', cs2)
    else if e = 'b' then some (Char.ofNat 8, cs2)
    else if e = 'f' then some (Char.ofNat 12, cs2)
    else if e = 'n' then some (Char.ofNat 10, cs2)
    else if e = 'r' then some (Char.ofNat 13, cs2)
    else if e = 't' then some (Char.ofNat 9, cs2)
    else if e = 'u' then
      match cs2 with
      | h1 :: h2 :: h3 :: h4 :: cs3 =>
        if isHexDigitChar h1 && isHexDigitChar h2 && isHexDigitChar h3 && isHexDigitChar h4 then
          let n := ((hexVal h1 * 16 + hexVal h2) * 16 + hexVal h3) * 16 + hexVal h4
          if n < 55296 || 57344 ≤ n then some (Char.ofNat n, cs3)
          else if n < 56320 then
            match cs3 with
            | b1 :: u1 :: j1 :: j2 :: j3 :: j4 :: cs4 =>
              if b1 = backslashChar && u1 = 'u' &&
                  isHexDigitChar j1 && isHexDigitChar j2 &&
                  isHexDigitChar j3 && isHexDigitChar j4 then
                let m := ((hexVal j1 * 16 + hexVal j2) * 16 + hexVal j3) * 16 + hexVal j4
                if 56320 ≤ m && m < 57344 then
                  some (Char.ofNat (65536 + (n - 55296) * 1024 + (m - 56320)), cs4)
                else none
              else none
            | _ => none
          else none
        else none
      | _ => none
    else none

/-- Parse the body of a JSON string after the opening quote, returning the
decoded characters and the input after the closing quote.  The fuel argument
only bounds the loop; every iteration consumes at least one input character,
so fuel equal to the input length (as supplied by `parseJStringBody`) never
cuts a parse short. -/
def parseJStringBodyF : ℕ → List Char → Option (List Char × List Char)
  | 0, _ => none
  | _ + 1, [] => none
  | f + 1, c :: cs =>
    if c = quoteChar then some ([], cs)
    else if c = backslashChar then
      match parseEscape cs with
      | some (d, cs2) => (parseJStringBodyF f cs2).map (fun p => (d :: p.1, p.2))
      | none => none
    else if c.toNat < 32 then none
    else (parseJStringBodyF f cs).map (fun p => (c :: p.1, p.2))

/-- String-body parse with sufficient fuel. -/
def parseJStringBody (cs : List Char) : Option (List Char × List Char) :=
  parseJStringBodyF cs.length cs

/-- The decimal value `(if neg then -1 else 1) * m * 10 ^ (e - f)` of a
parsed numeral (joint value `m` of the integer and fraction digits, `f`
fraction digits, exponent `e`), put into canonical form: the number the
platform numeral-to-number conversion yields, as `serNumChars` prints it
back. -/
def mkJsonNumber (neg : Bool) (m f : ℕ) (e : ℤ) : JsonNumber :=
  if m = 0 then ⟨0, 0⟩
  else
    let p := stripTrailingZeros m
    let pos : ℤ := (p.2 : ℤ) + e - (f : ℤ)
    let sd : ℤ := if neg then -(p.1 : ℤ) else (p.1 : ℤ)
    if 0 ≤ pos then ⟨sd * 10 ^ pos.toNat, 0⟩ else ⟨sd, (-pos).toNat⟩

/-- Parse the optional fraction part of a JSON numeral: a decimal point
must be followed by at least one digit. -/
def parseFracPart (cs : List Char) : Option (List Char × List Char) :=
  if cs.head? = some '.' then
    if (cs.tail.takeWhile isDigitChar).isEmpty then none
    else some (cs.tail.takeWhile isDigitChar, cs.tail.dropWhile isDigitChar)
  else some ([], cs)

/-- Parse the optional exponent part of a JSON numeral: `e` or `E`, an
optional sign, and at least one digit. -/
def parseExpPart (cs : List Char) : Option (ℤ × List Char) :=
  if cs.head? = some 'e' ∨ cs.head? = some 'E' then
    let body :=
      if cs.tail.head? = some '+' then (false, cs.tail.tail)
      else if cs.tail.head? = some '-' then (true, cs.tail.tail)
      else (false, cs.tail)
    if (body.2.takeWhile isDigitChar).isEmpty then none
    else some ((if body.1 then -(parseNatDigits (body.2.takeWhile isDigitChar) : ℤ)
        else (parseNatDigits (body.2.takeWhile isDigitChar) : ℤ)),
      body.2.dropWhile isDigitChar)
  else some (0, cs)

/-- Parse a JSON number after the optional minus sign: integer digits (with
the leading-zero restriction), an optional fraction, an optional exponent,
combined into the decimal value of the numeral in canonical form. -/
def parseNumTail (neg : Bool) (cs : List Char) : Option (Json × List Char) :=
  let ids := cs.takeWhile isDigitChar
  let r1 := cs.dropWhile isDigitChar
  if ids.isEmpty then none
  else if 1 < ids.length && ids.head? = some '0' then none
  else
    match parseFracPart r1 with
    | none => none
    | some (fds, r2) =>
      match parseExpPart r2 with
      | none => none
      | some (ev, r3) =>
        some (.num (mkJsonNumber neg (parseNatDigits (ids ++ fds)) fds.length ev), r3)

mutual

/-- Recursive-descent JSON value parse with explicit fuel (`JSON.parse`
refuses what this refuses on the embedded fragment; fuel only bounds the
nesting recursion and is supplied generously at top level). -/
def parseJsonValue : ℕ → List Char → Option (Json × List Char)
  | 0, _ => none
  | fuel + 1, cs =>
    match skipWs cs with
    | [] => none
    | c :: rest =>
      if c = 'n' then
        match rest with
        | 'u' :: 'l' :: 'l' :: r => some (.null, r)
        | _ => none
      else if c = 't' then
        match rest with
        | 'r' :: 'u' :: 'e' :: r => some (.bool true, r)
        | _ => none
      else if c = 'f' then
        match rest with
        | 'a' :: 'l' :: 's' :: 'e' :: r => some (.bool false, r)
        | _ => none
      else if c = quoteChar then
        (parseJStringBody rest).map (fun p => (.str (String.mk p.1), p.2))
      else if c = '-' then parseNumTail true rest
      else if isDigitChar c then parseNumTail false (c :: rest)
      else if c = '[' then
        let r0 := skipWs rest
        if r0.head? = some ']' then some (.arr [], r0.tail)
        else (parseJsonElems fuel rest).map (fun p => (.arr p.1, p.2))
      else if c = lbraceChar then
        let r0 := skipWs rest
        if r0.head? = some rbraceChar then some (.obj [], r0.tail)
        else (parseJsonFields fuel rest).map (fun p => (.obj p.1, p.2))
      else none

/-- Parse one or more comma-separated array elements and the closing
bracket. -/
def parseJsonElems : ℕ → List Char → Option (List Json × List Char)
  | 0, _ => none
  | fuel + 1, cs => do
    let (v, r1) ← parseJsonValue fuel cs
    match skipWs r1 with
    | c :: r2 =>
      if c = ',' then (parseJsonElems fuel r2).map (fun p => (v :: p.1, p.2))
      else if c = ']' then some ([v], r2)
      else none
    | [] => none

/-- Parse one or more comma-separated object fields and the closing brace. -/
def parseJsonFields : ℕ → List Char → Option (List (String × Json) × List Char)
  | 0, _ => none
  | fuel + 1, cs =>
    match skipWs cs with
    | c :: rest =>
      if c = quoteChar then
        match parseJStringBody rest with
        | some (k, r1) =>
          match skipWs r1 with
          | c1 :: r2 =>
            if c1 = ':' then do
              let (v, r3) ← parseJsonValue fuel r2
              match skipWs r3 with
              | c2 :: r4 =>
                if c2 = ',' then
                  (parseJsonFields fuel r4).map (fun p => ((String.mk k, v) :: p.1, p.2))
                else if c2 = rbraceChar then some ([(String.mk k, v)], r4)
                else none
              | [] => none
            else none
          | [] => none
        | none => none
      else none
    | [] => none

end

/-- `JSON.parse` on the embedded fragment: parse one value, then require only
whitespace to follow. -/
def jsonParse (s : String) : Option Json :=
  match parseJsonValue (s.data.length + 1) s.data with
  | some (j, rest) => if skipWs rest = [] then some j else none
  | none => none

/-- A JavaScript value handed to `JSON.stringify`: either a value of the
JSON-safe fragment or a self-referential (circular) structure. -/
inductive JsonDoc where
  | value (j : Json)
  | circular

/-- Platform `JSON.stringify`: serializes a JSON-safe value, throws a
`TypeError` on a circular structure (modelled as `Except.error`). -/
def jsonStringifyExc : JsonDoc → Except Unit String
  | .value j => .ok (String.mk (serJson j))
  | .circular => .error ()

/-- `safeJsonStringify`: `JSON.stringify` in a `try/catch`, `null` on
failure. -/
def safeJsonStringify (value : JsonDoc) : Option String :=
  match jsonStringifyExc value with
  | .ok s => some s
  | .error _ => none

/-- Platform `JSON.parse`: throws a `SyntaxError` (modelled as
`Except.error`) when the text is not valid JSON. -/
def jsonParseExc (s : String) : Except Unit Json :=
  match jsonParse s with
  | some j => .ok j
  | none => .error ()

/-- `safeJsonParse`: `null` for a missing, empty or non-string input,
otherwise `JSON.parse` in a `try/catch` with `null` on failure. -/
def safeJsonParse (input : Option String) : Option Json :=
  match input with
  | none => none
  | some s =>
    if s = "" then none
    else
      match jsonParseExc s with
      | .ok j => some j
      | .error _ => none

/-! ## Storage: the browser store boundary and the two bounded helpers

The browser `localStorage` is a synchronous string store whose every call can
throw (quota exceeded, disabled storage, private mode).  `LSState.throws`
models an environment in which every underlying call throws. -/

/-- The underlying browser store: current contents plus whether calls
throw. -/
structure LSState where
  store : List (String × String)
  throws : Bool

/-- Platform `localStorage.getItem`. -/
def lsGetItem (key : String) (s : LSState) : Except Unit (Option String) :=
  if s.throws then .error ()
  else .ok ((s.store.find? (fun kv => kv.1 == key)).map (fun kv => kv.2))

/-- Platform `localStorage.setItem`. -/
def lsSetItem (key value : String) (s : LSState) : Except Unit LSState :=
  if s.throws then .error ()
  else .ok ⟨(key, value) :: s.store.filter (fun kv => !(kv.1 == key)), s.throws⟩

/-- Platform `localStorage.removeItem`. -/
def lsRemoveItem (key : String) (s : LSState) : Except Unit LSState :=
  if s.throws then .error ()
  else .ok ⟨s.store.filter (fun kv => !(kv.1 == key)), s.throws⟩

/-! ### `createSafeTypedLocalStorage` operations (the typed singleton helper)

`set`, `get`, `remove` wrap the store call in `try/catch`; `getParsed` calls
`localStorage.getItem(key)` with no `try/catch` and then `safeJsonParse`. -/

/-- `set`: `setItem` inside `try/catch`; an exception is swallowed.  (The
value is the already-computed string argument of `setItem`.) -/
def stsSet (key value : String) (s : LSState) : Except Unit LSState :=
  match lsSetItem key value s with
  | .ok s2 => .ok s2
  | .error _ => .ok s

/-- `get`: `getItem` inside `try/catch`; an exception yields `null`. -/
def stsGet (key : String) (s : LSState) : Except Unit (Option String) :=
  match lsGetItem key s with
  | .ok r => .ok r
  | .error _ => .ok none

/-- `getParsed`: `const data = localStorage.getItem(key); return
safeJsonParse(data);` — the `getItem` call is not inside any `try/catch`, so
its exception propagates to the caller. -/
def stsGetParsed (key : String) (s : LSState) : Except Unit (Option Json) :=
  match lsGetItem key s with
  | .ok data => .ok (safeJsonParse data)
  | .error e => .error e

/-- `remove`: `removeItem` inside `try/catch`; an exception is swallowed. -/
def stsRemove (key : String) (s : LSState) : Except Unit LSState :=
  match lsRemoveItem key s with
  | .ok s2 => .ok s2
  | .error _ => .ok s

/-! ### `createLocalStorageHelper` operations (the `lsutils` variant)

`set` and `getParsed` wrap their store calls in `try/catch`; `get` and
`remove` call the store with no `try/catch` at all. -/

/-- `set`: `setItem` inside `try/catch`. -/
def clSet (key value : String) (s : LSState) : Except Unit LSState :=
  match lsSetItem key value s with
  | .ok s2 => .ok s2
  | .error _ => .ok s

/-- `get`: `localStorage.getItem(key) || ""` with no `try/catch`; the falsy
values `null` and the empty string both become `""`, an exception
propagates. -/
def clGet (key : String) (s : LSState) : Except Unit String :=
  match lsGetItem key s with
  | .ok (some v) => .ok (if v = "" then "" else v)
  | .ok none => .ok ""
  | .error e => .error e

/-- Body of `getParsed` before the surrounding `try/catch`:
`const data = localStorage.getItem(key); return data ? JSON.parse(data) :
null`. -/
def clGetParsedInner (key : String) (s : LSState) : Except Unit (Option Json) :=
  match lsGetItem key s with
  | .error e => .error e
  | .ok none => .ok none
  | .ok (some v) =>
    if v = "" then .ok none
    else
      match jsonParseExc v with
      | .ok j => .ok (some j)
      | .error e => .error e

/-- `getParsed`: the body above inside `try/catch`, `null` on exception. -/
def clGetParsed (key : String) (s : LSState) : Except Unit (Option Json) :=
  match clGetParsedInner key s with
  | .ok r => .ok r
  | .error _ => .ok none

/-- `remove`: `localStorage.removeItem(key)` with no `try/catch`; an
exception propagates. -/
def clRemove (key : String) (s : LSState) : Except Unit LSState :=
  lsRemoveItem key s

/-! ### The singleton factories -/

/-- The helper instance returned by `createLocalStorageHelper`. -/
structure CLHelper where
  set : String → String → LSState → Except Unit LSState
  get : String → LSState → Except Unit String
  getParsed : String → LSState → Except Unit (Option Json)
  remove : String → LSState → Except Unit LSState

/-- The operations of the `createLocalStorageHelper` instance. -/
def clHelper : CLHelper := ⟨clSet, clGet, clGetParsed, clRemove⟩

/-- The helper instance returned by `createSafeTypedLocalStorage`. -/
structure STSHelper where
  set : String → String → LSState → Except Unit LSState
  get : String → LSState → Except Unit (Option String)
  getParsed : String → LSState → Except Unit (Option Json)
  remove : String → LSState → Except Unit LSState

/-- The operations of the `createSafeTypedLocalStorage` instance. -/
def stsHelper : STSHelper := ⟨stsSet, stsGet, stsGetParsed, stsRemove⟩

/-- `createLocalStorageHelper`: throws when the module flag `initialized` is
already set, otherwise sets it and returns the helper.  The argument is the
current flag, the result carries the new flag. -/
def createLocalStorageHelper (initFlag : Bool) : Except String (CLHelper × Bool) :=
  if initFlag then .error "[LS] LocalStorageHelper already initialized!"
  else .ok (clHelper, true)

/-- `createSafeTypedLocalStorage`: same singleton guard, its own module
flag. -/
def createSafeTypedLocalStorage (initFlag : Bool) : Except String (STSHelper × Bool) :=
  if initFlag then .error "[LS] LocalStorageHelper already initialized!"
  else .ok (stsHelper, true)

/-- Value of the `lsutils` module flag after `n` factory calls; it starts
`false` at process start, and a throwing call leaves it unchanged (the throw
happens before the assignment). -/
def clFlagAfter : ℕ → Bool
  | 0 => false
  | n + 1 =>
    match createLocalStorageHelper (clFlagAfter n) with
    | .ok p => p.2
    | .error _ => clFlagAfter n

/-- Value of the typed-helper module flag after `n` factory calls. -/
def stsFlagAfter : ℕ → Bool
  | 0 => false
  | n + 1 =>
    match createSafeTypedLocalStorage (stsFlagAfter n) with
    | .ok p => p.2
    | .error _ => stsFlagAfter n

/-! ## `getCryptoRandomInt` -/

/-- A JavaScript number: `NaN`, the infinities, or a finite value (exact
rational). -/
inductive JSNum where
  | nan
  | posInf
  | negInf
  | finite (q : ℚ)

/-- `Math.round`: nearest integer, halves toward positive infinity. -/
def jsRound (q : ℚ) : ℤ := ⌊q + 1 / 2⌋

/-- `Math.floor`. -/
def jsFloor (q : ℚ) : ℤ := ⌊q⌋

/-- `Number.MAX_SAFE_INTEGER`. -/
def maxSafeInteger : ℤ := 2 ^ 53 - 1

/-- Input sanitization of one bound: a missing argument or a non-number has
`typeof` unequal to `"number"`, `NaN` and the infinities fail
`Number.isFinite`; all of these take the default, a finite value is
rounded. -/
def sanitizeBound (x : Option JSNum) (dflt : ℤ) : ℤ :=
  match x with
  | some (.finite q) => jsRound q
  | _ => dflt

/-- Clamp to the safe-integer interval. -/
def clampSafe (n : ℤ) : ℤ := max (-maxSafeInteger) (min maxSafeInteger n)

/-- The sanitized parameters of `getCryptoRandomInt`: bounds after
defaulting, rounding, clamping and swapping, plus the resulting range
(with the `range ≤ 0 or range > 2^32` fallback applied). -/
structure CryptoParams where
  safeMin : ℤ
  safeMax : ℤ
  range : ℤ
deriving DecidableEq, Repr

/-- Sanitization pipeline of `getCryptoRandomInt`. -/
def cryptoParams (min? max? : Option JSNum) : CryptoParams :=
  let m1 := clampSafe (sanitizeBound min? 0)
  let m2 := clampSafe (sanitizeBound max? 1)
  let safeMin := if m1 > m2 then m2 else m1
  let safeMax := if m1 > m2 then m1 else m2
  let range := safeMax - safeMin + 1
  if range ≤ 0 ∨ range > 2 ^ 32 then ⟨0, 1, 2⟩ else ⟨safeMin, safeMax, range⟩

/-- `limit = maxUint32 - (maxUint32 % range)` with `maxUint32 =
0xffffffff`. -/
def cryptoLimit (range : ℤ) : ℤ := 4294967295 - (4294967295 % range)

/-- The rejection-sampling loop of `getCryptoRandomInt` over an explicit
stream of 32-bit draws from `crypto.getRandomValues`: the first draw below
`limit` is accepted; `none` models a loop that is still running when the
stream is exhausted. -/
def getCryptoRandomInt (min? max? : Option JSNum) (draws : List ℕ) : Option ℤ :=
  let p := cryptoParams min? max?
  let limit := cryptoLimit p.range
  match draws.find? (fun u => decide ((u : ℤ) < limit)) with
  | some u => some (p.safeMin + (u : ℤ) % p.range)
  | none => none

/-! ## `isNumeric` -/

/-- The three validation options of `isNumeric`. -/
structure IsNumericOptions where
  notNegative : Bool := false
  isInteger : Bool := false
  allowEmpty : Bool := false

/-- Whole-string match of `/^\d*$/` (`NUMERIC_REGEX.integerNotNegative`). -/
def matchDigits (l : List Char) : Bool := l.all isDigitChar

/-- Whole-string match of `/^-?\d*\.?\d*$/` (`NUMERIC_REGEX.base`): optional
minus, digit run, optional point, digit run. -/
def matchBase (l : List Char) : Bool :=
  let l1 :=
    match l with
    | c :: r => if c = '-' then r else l
    | [] => l
  match l1.dropWhile isDigitChar with
  | [] => true
  | c :: r => c = '.' && r.all isDigitChar

/-- Whole-string match of `/^\d*\.?\d*$/` (`NUMERIC_REGEX.notNegative`). -/
def matchNotNegative (l : List Char) : Bool :=
  match l.dropWhile isDigitChar with
  | [] => true
  | c :: r => c = '.' && r.all isDigitChar

/-- Whole-string match of `/^-?\d*$/` (`NUMERIC_REGEX.integer`). -/
def matchInteger (l : List Char) : Bool :=
  match l with
  | c :: r => if c = '-' then matchDigits r else matchDigits l
  | [] => true

/-- `isNumeric` on a string input (the `typeof` gate is carried by the input
type): the `"-."` and `"."` edge cases are blocked, the empty string is
valid only with `allowEmpty`, otherwise the regex selected by the options
must match. -/
def isNumericStr (value : String) (options : IsNumericOptions) : Bool :=
  if value = "-." ∨ value = "." then false
  else if value = "" then options.allowEmpty
  else
    let l := value.data
    if options.isInteger && options.notNegative then matchDigits l
    else if options.isInteger then matchInteger l
    else if options.notNegative then matchNotNegative l
    else matchBase l

/-- `isNumeric` on a number input with default options, as called by
`getRandomPastelColors(count)`.  Per ECMA-262 `Number::toString`, a finite
double prints in plain decimal (optional minus, digits, optional point,
digits — always a match for `NUMERIC_REGEX.base`) exactly when it is zero or
`1e-6 ≤ |x| < 1e21`; otherwise it prints in exponential form, and `NaN` and
the infinities print as words, none of which match the regex. -/
def isNumericNumber (x : JSNum) : Bool :=
  match x with
  | .finite q => decide (q = 0 ∨ ((1 : ℚ) / 1000000 ≤ |q| ∧ |q| < 10 ^ 21))
  | _ => false

/-! ## Pastel colors -/

/-- The fixed 45-color palette of `pastelColors.ts`. -/
def pastelColors : List String :=
  ["#ff0000", "#dc143c", "#ff4500", "#ff6347",
   "#ff8c00", "#ffbb28", "#f1935c", "#ea907a", "#ffa07a",
   "#ffd700", "#ffff00", "#c7f000", "#ffee93", "#faf0af", "#f0e68c",
   "#7fff00", "#32cd32", "#00ff00", "#1cb54e", "#a7e9af",
   "#00fa9a", "#00c49f", "#2fc4c6", "#00ffff", "#00ced1",
   "#0088fe", "#588da8", "#4f6d7a", "#679b9b", "#95b8d1", "#a6ade0", "#0000ff",
   "#8a2be2", "#9400d3", "#b040cc", "#851372",
   "#ff00ff", "#d8345f", "#ff1493", "#ff69b4", "#fb6f92", "#db7093", "#ffa8bb", "#ffd1dc",
   "#d4b5b0"]

/-- `pastelColorsLength`. -/
def pastelColorsLength : ℕ := pastelColors.length

/-- The sanitized draw count: non-numeric input (per `isNumeric`) defaults to
the whole palette, a numeric input is floored and clamped into
`[1, pastelColorsLength]`. -/
def pastelCount (count : JSNum) : ℕ :=
  match count with
  | .finite q =>
    if isNumericNumber (.finite q) then
      (min (max (jsFloor q) 1) (pastelColorsLength : ℤ)).toNat
    else pastelColorsLength
  | _ => pastelColorsLength

/-- The `while (result.length < count)` selection loop: each iteration draws
an index (each draw is `getCryptoRandomInt(0, pastelColorsLength - 1)`, hence
in range — encoded by `Fin`), skips indices already used, and stops when
`count` indices are collected.  `none` models a loop still running when the
draw stream is exhausted. -/
def selectIndices (count : ℕ) (draws : List (Fin pastelColors.length))
    (acc : List (Fin pastelColors.length)) : Option (List (Fin pastelColors.length)) :=
  if count ≤ acc.length then some acc
  else
    match draws with
    | [] => none
    | d :: rest =>
      if d ∈ acc then selectIndices count rest acc
      else selectIndices count rest (acc ++ [d])

/-- `getRandomPastelColors`: sanitize the count, run the selection loop, map
the collected indices to palette entries. -/
def getRandomPastelColors (count : JSNum) (draws : List (Fin pastelColors.length)) :
    Option (List String) :=
  (selectIndices (pastelCount count) draws []).map (fun idxs => idxs.map pastelColors.get)

/-! ## `urlQueryStringFromObject` -/

/-- A JavaScript value as seen by the query-string serializer.  Finite
numbers are restricted to (safe) integers in this embedding — only their
decimal `String(n)` form is needed; `NaN` and the infinities are separate
constructors because the serializer skips them.  A `Date` is carried as its
`toISOString()` form. -/
inductive JsValue where
  | null
  | undef
  | bool (b : Bool)
  | num (n : ℤ)
  | nan
  | infinity
  | negInfinity
  | str (s : String)
  | func
  | symbol
  | date (iso : String)
  | arr (elements : List JsValue)
  | obj (fields : List (String × JsValue))

/-- `isPlainObject` of `types.ts`: true exactly for a plain object (arrays,
dates, null, primitives and functions are all refused by the
`Object.prototype.toString` and prototype checks). -/
def isPlainObjectB : JsValue → Bool
  | .obj _ => true
  | _ => false

/-- Uppercase hexadecimal digit character for `d < 16`. -/
def hexDigitUpper (d : ℕ) : Char := if d < 10 then digitChar d else Char.ofNat (55 + d)

/-- The characters `encodeURIComponent` leaves unescaped: ASCII letters,
digits, and `- _ . ! ~ * ( )` plus the apostrophe (code 39). -/
def isUriUnreserved (c : Char) : Bool :=
  (65 ≤ c.toNat && c.toNat ≤ 90) || (97 ≤ c.toNat && c.toNat ≤ 122) ||
    (48 ≤ c.toNat && c.toNat ≤ 57) ||
    ['-', '_', '.', '!', '~', '*', Char.ofNat 39, '(', ')'].contains c

/-- UTF-8 bytes of a character. -/
def utf8Bytes (c : Char) : List ℕ :=
  let n := c.toNat
  if n < 128 then [n]
  else if n < 2048 then [192 + n / 64, 128 + n % 64]
  else if n < 65536 then [224 + n / 4096, 128 + (n / 64) % 64, 128 + n % 64]
  else [240 + n / 262144, 128 + (n / 4096) % 64, 128 + (n / 64) % 64, 128 + n % 64]

/-- One percent-encoded byte, `%XY` with uppercase hex. -/
def percentEncodeByte (b : ℕ) : List Char := ['%', hexDigitUpper (b / 16), hexDigitUpper (b % 16)]

/-- Platform `encodeURIComponent`. -/
def encodeURIComponent (s : String) : String :=
  String.mk (s.data.flatMap (fun c =>
    if isUriUnreserved c then [c] else (utf8Bytes c).flatMap percentEncodeByte))

/-- `String(n)` for an integer number. -/
def jsIntToString (n : ℤ) : String := String.mk (intToChars n)

mutual

/-- The recursive `buildQuery` helper: returns the parts contributed for one
key path and value (the source pushes onto a shared `parts` array; returning
the pushed list is equivalent).  `keyPath` is the source's `keyPrefix`
accumulator. -/
def buildQuery : String → JsValue → List String
  | _, .null => []
  | _, .undef => []
  | _, .func => []
  | _, .symbol => []
  | _, .nan => []
  | _, .infinity => []
  | _, .negInfinity => []
  | keyPath, .arr l => buildQueryArr keyPath l
  | keyPath, .date iso => [keyPath ++ "=" ++ encodeURIComponent iso]
  | keyPath, .obj fields => buildQueryObj keyPath fields
  | keyPath, .bool b => [keyPath ++ "=" ++ encodeURIComponent (if b then "true" else "false")]
  | keyPath, .num n => [keyPath ++ "=" ++ encodeURIComponent (jsIntToString n)]
  | keyPath, .str s => [keyPath ++ "=" ++ encodeURIComponent s]

/-- Array handling of `buildQuery`: a plain-object element flattens one
level under `key[][prop]`, any other element (nested arrays included)
recurses under `key[]`. -/
def buildQueryArr : String → List JsValue → List String
  | _, [] => []
  | keyPath, .obj fields :: rest =>
    buildQueryObjInArr keyPath fields ++ buildQueryArr keyPath rest
  | keyPath, v :: rest =>
    buildQuery (keyPath ++ "[]") v ++ buildQueryArr keyPath rest

/-- Properties of a plain-object array element, under `key[][prop]`. -/
def buildQueryObjInArr : String → List (String × JsValue) → List String
  | _, [] => []
  | keyPath, (k, val) :: rest =>
    buildQuery (keyPath ++ "[][" ++ k ++ "]") val ++ buildQueryObjInArr keyPath rest

/-- Properties of a nested plain object, under `key[prop]`. -/
def buildQueryObj : String → List (String × JsValue) → List String
  | _, [] => []
  | keyPath, (subKey, subValue) :: rest =>
    buildQuery (keyPath ++ "[" ++ subKey ++ "]") subValue ++ buildQueryObj keyPath rest

end

/-- Top-level part collection: each own property `key` of the input runs
`buildQuery(parts, key, value)`. -/
def urlQueryTopParts : List (String × JsValue) → List String
  | [] => []
  | (key, value) :: rest => buildQuery key value ++ urlQueryTopParts rest

/-- `urlQueryStringFromObject`: empty string for a non-plain-object or an
object with no enumerable properties, otherwise the parts joined by `&`
behind `?` — or the empty string again when no part was emitted. -/
def urlQueryStringFromObject (obj : JsValue) : String :=
  match obj with
  | .obj fields =>
    if fields.length = 0 then ""
    else
      let parts := urlQueryTopParts fields
      if parts.length = 0 then "" else "?" ++ String.intercalate "&" parts
  | _ => ""

/-- `numBoundary rest`: the first character of `rest` cannot extend a JSON
integer numeral (used to state the parse lemma for serialized numbers). -/
def numBoundary : List Char → Bool
  | [] => true
  | c :: _ => !(isDigitChar c || c = '.' || c = 'e' || c = 'E')

mutual

/-- Fuel sufficient for `parseJsonValue` on the serialized form of `j` (the
empty array and object are recognized without recursing). -/
def jsonFuel : Json → ℕ
  | .arr [] => 1
  | .arr (x :: xs) => jsonFuelElems (x :: xs) + 1
  | .obj [] => 1
  | .obj (p :: xs) => jsonFuelFields (p :: xs) + 1
  | _ => 1

/-- Fuel sufficient for `parseJsonElems` on serialized elements (the last
element needs no continuation step). -/
def jsonFuelElems : List Json → ℕ
  | [] => 1
  | [j] => jsonFuel j + 1
  | j :: rest => jsonFuel j + jsonFuelElems rest + 1

/-- Fuel sufficient for `parseJsonFields` on serialized fields. -/
def jsonFuelFields : List (String × Json) → ℕ
  | [] => 1
  | [(_, v)] => jsonFuel v + 1
  | (_, v) :: rest => jsonFuel v + jsonFuelFields rest + 1

end

mutual

/-- Every number inside the value is in canonical decimal form.  Values of
the platform satisfy this: a finite number has exactly one printed numeral,
and the numeral-to-number conversion (`mkJsonNumber`) only builds canonical
forms. -/
def jsonCanon : Json → Bool
  | .num n => n.canonical
  | .arr l => jsonCanonElems l
  | .obj l => jsonCanonFields l
  | _ => true

/-- `jsonCanon` over array elements. -/
def jsonCanonElems : List Json → Bool
  | [] => true
  | j :: rest => jsonCanon j && jsonCanonElems rest

/-- `jsonCanon` over object fields. -/
def jsonCanonFields : List (String × Json) → Bool
  | [] => true
  | (_, v) :: rest => jsonCanon v && jsonCanonFields rest

end

/-- A sample JSON-safe value with fractional (`1.5`, `0.25`),
exponent-form (`1e-7`) and zero numbers, used to exercise the round trip on
a concrete input. -/
def jsonSample : Json :=
  .obj [("a", .num ⟨15, 1⟩),
        ("b", .arr [.num ⟨-1, 7⟩, .num ⟨25, 2⟩, .num ⟨0, 0⟩]),
        ("c", .str "x")]

/-! ## Numeral lemmas -/

theorem charDigitVal_digitChar : ∀ d, d < 10 → charDigitVal (digitChar d) = d := by decide

theorem isDigitChar_digitChar : ∀ d, d < 10 → isDigitChar (digitChar d) = true := by decide

theorem digitChar_ne_zeroChar : ∀ d, d < 10 → d ≠ 0 → digitChar d ≠ '0' := by decide

theorem natToChars_ne_nil (n : ℕ) : natToChars n ≠ [] := by
  rw [natToChars]
  split
  · simp
  · simp

theorem natToChars_all_digits (n : ℕ) : ∀ c ∈ natToChars n, isDigitChar c = true := by
  induction n using Nat.strong_induction_on with
  | _ n ih =>
    rw [natToChars]
    split
    · intro c hc
      rw [List.mem_singleton] at hc
      subst hc
      exact isDigitChar_digitChar n (by omega)
    · intro c hc
      have hdec : n / 10 < n := Nat.div_lt_self (by omega) (by omega)
      rcases List.mem_append.1 hc with hmem | hmem
      · exact ih _ hdec c hmem
      · simp only [List.mem_singleton] at hmem
        exact hmem ▸ isDigitChar_digitChar _ (Nat.mod_lt _ (by omega))

theorem natToChars_head_ne_zeroChar (n : ℕ) (hn : n ≠ 0) :
    ∀ c, (natToChars n).head? = some c → c ≠ '0' := by
  induction n using Nat.strong_induction_on with
  | _ n ih =>
    rw [natToChars]
    split
    · intro c hc
      simp at hc
      subst hc
      exact digitChar_ne_zeroChar n (by omega) hn
    · intro c hc
      rename_i hlt
      have hne := natToChars_ne_nil (n / 10)
      rw [List.head?_append_of_ne_nil _ hne] at hc
      exact ih (n / 10) (Nat.div_lt_self (by omega) (by omega))
        (by omega) c hc

theorem natToChars_foldl (n : ℕ) :
    ∀ a : ℕ, List.foldl (fun a c => 10 * a + charDigitVal c) a (natToChars n)
      = a * 10 ^ (natToChars n).length + n := by
  induction n using Nat.strong_induction_on with
  | _ n ih =>
    intro a
    rw [natToChars]
    split
    · simp [charDigitVal_digitChar n (by omega)]
      omega
    · rename_i hlt
      rw [List.foldl_append, ih (n / 10) (Nat.div_lt_self (by omega) (by omega)) a]
      have hd : charDigitVal (digitChar (n % 10)) = n % 10 :=
        charDigitVal_digitChar _ (Nat.mod_lt _ (by omega))
      simp only [List.foldl_cons, List.foldl_nil, hd, List.length_append,
        List.length_singleton]
      rw [pow_succ]
      have hdm : 10 * (n / 10) + n % 10 = n := Nat.div_add_mod n 10
      have hring : 10 * (a * 10 ^ (natToChars (n / 10)).length + n / 10) + n % 10
          = a * (10 ^ (natToChars (n / 10)).length * 10) + (10 * (n / 10) + n % 10) := by
        ring
      rw [hring, hdm]

theorem parseNatDigits_natToChars (n : ℕ) : parseNatDigits (natToChars n) = n := by
  have h := natToChars_foldl n 0
  simpa [parseNatDigits] using h

theorem foldl_digits_shift (B : List Char) :
    ∀ a : ℕ, List.foldl (fun a c => 10 * a + charDigitVal c) a B
      = a * 10 ^ B.length + List.foldl (fun a c => 10 * a + charDigitVal c) 0 B := by
  induction B with
  | nil => intro a; simp
  | cons c t ih =>
    intro a
    simp only [List.foldl_cons, List.length_cons]
    rw [ih (10 * a + charDigitVal c), ih (10 * 0 + charDigitVal c)]
    ring

theorem parseNatDigits_append (A B : List Char) :
    parseNatDigits (A ++ B) = parseNatDigits A * 10 ^ B.length + parseNatDigits B := by
  simp only [parseNatDigits, List.foldl_append]
  exact foldl_digits_shift B (List.foldl (fun a c => 10 * a + charDigitVal c) 0 A)

theorem parseNatDigits_replicate_zero (z : ℕ) :
    parseNatDigits (List.replicate z '0') = 0 := by
  induction z with
  | zero => rfl
  | succ n ih =>
    rw [List.replicate_succ]
    simp only [parseNatDigits, List.foldl_cons] at ih ⊢
    have h0 : 10 * 0 + charDigitVal '0' = 0 := by decide
    rw [h0]
    exact ih

theorem parseNatDigits_zeros_append (z : ℕ) (B : List Char) :
    parseNatDigits (List.replicate z '0' ++ B) = parseNatDigits B := by
  rw [parseNatDigits_append, parseNatDigits_replicate_zero]
  simp

theorem parseNatDigits_zero_cons (B : List Char) :
    parseNatDigits ('0' :: B) = parseNatDigits B := by
  have h := parseNatDigits_zeros_append 1 B
  simpa using h

theorem stripTrailingZeros_spec (a : ℕ) (ha : a ≠ 0) :
    a = (stripTrailingZeros a).1 * 10 ^ (stripTrailingZeros a).2
      ∧ (stripTrailingZeros a).1 % 10 ≠ 0 ∧ (stripTrailingZeros a).1 ≠ 0 := by
  induction a using Nat.strong_induction_on with
  | _ a ih =>
    rw [stripTrailingZeros]
    split
    · rename_i h
      dsimp only
      have hlt : a / 10 < a := Nat.div_lt_self (Nat.pos_of_ne_zero h.1) (by omega)
      have hd : a / 10 ≠ 0 := by omega
      obtain ⟨h1, h2, h3⟩ := ih (a / 10) hlt hd
      refine ⟨?_, h2, h3⟩
      rw [pow_succ, ← mul_assoc]
      omega
    · rename_i h
      dsimp only
      push_neg at h
      exact ⟨by simp, h ha, ha⟩

theorem stripTrailingZeros_of_mod (a : ℕ) (h : a % 10 ≠ 0) :
    stripTrailingZeros a = (a, 0) := by
  rw [stripTrailingZeros, dif_neg (by simp [h])]

theorem take_head_eq (l : List Char) (t : ℕ) (ht : 1 ≤ t) :
    (l.take t).head? = l.head? := by
  cases l with
  | nil => simp
  | cons c r =>
    cases t with
    | zero => omega
    | succ n => simp

/-- Character-class facts about decimal digit characters, used to steer the
parser. -/
theorem digit_char_facts (c : Char) (h : isDigitChar c = true) :
    jsonWsChar c = false ∧ c ≠ 'n' ∧ c ≠ 't' ∧ c ≠ 'f' ∧ c ≠ quoteChar ∧ c ≠ '-'
      ∧ c ≠ '[' ∧ c ≠ lbraceChar ∧ c ≠ '.' ∧ c ≠ 'e' ∧ c ≠ 'E' := by
  simp only [isDigitChar, Bool.and_eq_true, decide_eq_true_eq] at h
  obtain ⟨h1, h2⟩ := h
  refine ⟨?_, ?_, ?_, ?_, ?_, ?_, ?_, ?_, ?_, ?_, ?_⟩
  · have hsp : c ≠ ' ' := by intro he; subst he; revert h1 h2; decide
    have h9 : c ≠ Char.ofNat 9 := by intro he; subst he; revert h1 h2; decide
    have h10 : c ≠ Char.ofNat 10 := by intro he; subst he; revert h1 h2; decide
    have h13 : c ≠ Char.ofNat 13 := by intro he; subst he; revert h1 h2; decide
    simp [jsonWsChar, hsp, h9, h10, h13]
  all_goals (intro he; subst he; revert h1 h2; decide)

/-! ## JSON string round trip -/

theorem stringMk_data (s : String) : String.mk s.data = s := rfl

theorem hex_digit_facts :
    ∀ d, d < 16 → isHexDigitChar (hexDigitChar d) = true ∧ hexVal (hexDigitChar d) = d := by
  decide

theorem escapeChar_length_pos (c : Char) : 1 ≤ (escapeChar c).length := by
  simp only [escapeChar]
  split_ifs <;> simp [uEscape]

theorem flatMap_escapeChar_length (s : List Char) :
    s.length ≤ (s.flatMap escapeChar).length := by
  induction s with
  | nil => simp
  | cons c s ih =>
    rw [List.flatMap_cons, List.length_append, List.length_cons]
    have := escapeChar_length_pos c
    omega

/-- Character disequalities used to steer the escape decoder (the constants
written with `Char.ofNat` are opaque to the `decide` simproc). -/
theorem escSteerFacts :
    ¬ backslashChar = quoteChar ∧
    (∀ e ∈ ['b', 'f', 'n', 'r', 't', 'u', '/', '0'],
      ¬ e = quoteChar ∧ ¬ e = backslashChar) ∧
    (∀ k ∈ [8, 9, 10, 12, 13], ¬ Char.ofNat k = quoteChar ∧ ¬ Char.ofNat k = backslashChar) := by
  decide

/-- The parser decodes one serialized character and continues. -/
theorem parseJStringBodyF_escapeChar (c : Char) (f : ℕ) (tail s2 rest : List Char)
    (htail : parseJStringBodyF f tail = some (s2, rest)) :
    parseJStringBodyF (f + 1) (escapeChar c ++ tail) = some (c :: s2, rest) := by
  have hA : ¬ backslashChar = quoteChar := escSteerFacts.1
  have hBq : ¬ ('b' : Char) = quoteChar := (escSteerFacts.2.1 'b' (by simp)).1
  have hBb : ¬ ('b' : Char) = backslashChar := (escSteerFacts.2.1 'b' (by simp)).2
  have hFq : ¬ ('f' : Char) = quoteChar := (escSteerFacts.2.1 'f' (by simp)).1
  have hFb : ¬ ('f' : Char) = backslashChar := (escSteerFacts.2.1 'f' (by simp)).2
  have hNq : ¬ ('n' : Char) = quoteChar := (escSteerFacts.2.1 'n' (by simp)).1
  have hNb : ¬ ('n' : Char) = backslashChar := (escSteerFacts.2.1 'n' (by simp)).2
  have hRq : ¬ ('r' : Char) = quoteChar := (escSteerFacts.2.1 'r' (by simp)).1
  have hRb : ¬ ('r' : Char) = backslashChar := (escSteerFacts.2.1 'r' (by simp)).2
  have hTq : ¬ ('t' : Char) = quoteChar := (escSteerFacts.2.1 't' (by simp)).1
  have hTb : ¬ ('t' : Char) = backslashChar := (escSteerFacts.2.1 't' (by simp)).2
  have hUq : ¬ ('u' : Char) = quoteChar := (escSteerFacts.2.1 'u' (by simp)).1
  have hUb : ¬ ('u' : Char) = backslashChar := (escSteerFacts.2.1 'u' (by simp)).2
  have hZq : ¬ ('0' : Char) = quoteChar := (escSteerFacts.2.1 '0' (by simp)).1
  have hZb : ¬ ('0' : Char) = backslashChar := (escSteerFacts.2.1 '0' (by simp)).2
  by_cases hq : c = quoteChar
  · subst hq
    simp [escapeChar, parseJStringBodyF, parseEscape, htail, hA]
  by_cases hb : c = backslashChar
  · subst hb
    simp [escapeChar, parseJStringBodyF, parseEscape, htail, hA]
  by_cases h8 : c = Char.ofNat 8
  · subst h8
    simp [escapeChar, parseJStringBodyF, parseEscape, htail, hA, hBq, hBb]
  by_cases h9 : c = Char.ofNat 9
  · subst h9
    simp [escapeChar, parseJStringBodyF, parseEscape, htail, hA, hBq, hBb, hFq, hFb,
      hNq, hNb, hRq, hRb, hTq, hTb]
  by_cases h10 : c = Char.ofNat 10
  · subst h10
    simp [escapeChar, parseJStringBodyF, parseEscape, htail, hA, hBq, hBb, hFq, hFb,
      hNq, hNb]
  by_cases h12 : c = Char.ofNat 12
  · subst h12
    simp [escapeChar, parseJStringBodyF, parseEscape, htail, hA, hBq, hBb, hFq, hFb]
  by_cases h13 : c = Char.ofNat 13
  · subst h13
    simp [escapeChar, parseJStringBodyF, parseEscape, htail, hA, hBq, hBb, hFq, hFb,
      hNq, hNb, hRq, hRb]
  by_cases hlt : c.toNat < 32
  · have hdiv : c.toNat / 16 < 16 := by omega
    have hmod : c.toNat % 16 < 16 := Nat.mod_lt _ (by omega)
    have hfd := hex_digit_facts _ hdiv
    have hfm := hex_digit_facts _ hmod
    have hesc : escapeChar c = uEscape c.toNat := by
      simp [escapeChar, hq, hb, h8, h9, h10, h12, h13, hlt]
    rw [hesc, uEscape]
    have hn : ((hexVal '0' * 16 + hexVal '0') * 16 + hexVal (hexDigitChar (c.toNat / 16))) * 16
        + hexVal (hexDigitChar (c.toNat % 16)) = c.toNat := by
      rw [hfd.2, hfm.2]
      have h0 : hexVal '0' = 0 := by decide
      rw [h0]
      omega
    have hz : isHexDigitChar '0' = true := by decide
    have hcr : c.toNat < 55296 ∨ 57344 ≤ c.toNat := Or.inl (by omega)
    simp [parseJStringBodyF, parseEscape, hfd.1, hfm.1, hn, htail, hA, hBq, hBb, hFq, hFb,
      hNq, hNb, hRq, hRb, hTq, hTb, hUq, hUb, hZq, hZb, hz, hcr]
  · have hesc : escapeChar c = [c] := by
      simp [escapeChar, hq, hb, h8, h9, h10, h12, h13, hlt]
    rw [hesc]
    simp [parseJStringBodyF, hq, hb, hlt, htail]

/-- Round trip for a serialized string body with sufficient fuel. -/
theorem parseJStringBodyF_ser (s : List Char) :
    ∀ (f : ℕ) (rest : List Char), s.length + 1 ≤ f →
      parseJStringBodyF f (s.flatMap escapeChar ++ quoteChar :: rest) = some (s, rest) := by
  induction s with
  | nil =>
    intro f rest hf
    match f, hf with
    | f + 1, _ => simp [parseJStringBodyF]
  | cons c s ih =>
    intro f rest hf
    match f, hf with
    | f + 1, hf2 =>
      rw [List.flatMap_cons, List.append_assoc]
      refine parseJStringBodyF_escapeChar c f _ s rest (ih f rest ?_)
      simp only [List.length_cons] at hf2
      omega

/-- Round trip for a serialized string body: parsing the escaped characters
followed by the closing quote returns the original characters. -/
theorem parseJStringBody_ser (s rest : List Char) :
    parseJStringBody (s.flatMap escapeChar ++ quoteChar :: rest) = some (s, rest) := by
  have hlen := flatMap_escapeChar_length s
  refine parseJStringBodyF_ser s _ rest ?_
  simp only [List.length_append, List.length_cons]
  omega

/-! ## JSON number round trip -/

theorem takeWhile_all_append {p : Char → Bool} (l r : List Char)
    (hl : ∀ c ∈ l, p c = true)
    (hr : ∀ c, r.head? = some c → p c = false) :
    (l ++ r).takeWhile p = l ∧ (l ++ r).dropWhile p = r := by
  induction l with
  | nil =>
    simp only [List.nil_append]
    cases r with
    | nil => simp
    | cons c r2 =>
      have := hr c rfl
      simp [List.takeWhile_cons, List.dropWhile_cons, this]
  | cons c l ih =>
    have hc : p c = true := hl c (by simp)
    have ih2 := ih (fun d hd => hl d (by simp [hd]))
    simp [List.takeWhile_cons, List.dropWhile_cons, hc, ih2.1, ih2.2]

theorem natToChars_length_one_lt (m : ℕ) (h : 1 < (natToChars m).length) : m ≠ 0 := by
  intro hm
  subst hm
  rw [natToChars] at h
  simp at h

/-- Head facts delivered by a `numBoundary` continuation. -/
theorem numBoundary_head (rest : List Char) (h : numBoundary rest = true) :
    ∀ c, rest.head? = some c →
      isDigitChar c = false ∧ ¬c = '.' ∧ ¬c = 'e' ∧ ¬c = 'E' := by
  cases rest with
  | nil => intro c hc; simp at hc
  | cons d r =>
    intro c hc
    simp only [List.head?_cons, Option.some.injEq] at hc
    subst hc
    simp only [numBoundary, Bool.not_eq_true', Bool.or_eq_false_iff,
      decide_eq_false_iff_not] at h
    exact ⟨h.1.1.1, h.1.1.2, h.1.2, h.2⟩

theorem parseFracPart_skip (cs : List Char) (h : ¬cs.head? = some '.') :
    parseFracPart cs = some ([], cs) := by
  simp only [parseFracPart]
  rw [if_neg h]

theorem numBoundary_frac (rest : List Char) (h : numBoundary rest = true) :
    parseFracPart rest = some ([], rest) := by
  apply parseFracPart_skip
  cases rest with
  | nil => simp
  | cons c r =>
    have hc := numBoundary_head (c :: r) h c rfl
    simp [hc.2.1]

theorem parseExpPart_skip (cs : List Char) (h1 : ¬cs.head? = some 'e')
    (h2 : ¬cs.head? = some 'E') :
    parseExpPart cs = some (0, cs) := by
  simp only [parseExpPart]
  rw [if_neg (by simp [h1, h2])]

theorem numBoundary_exp (rest : List Char) (h : numBoundary rest = true) :
    parseExpPart rest = some (0, rest) := by
  cases rest with
  | nil => exact parseExpPart_skip [] (by simp) (by simp)
  | cons c r =>
    have hc := numBoundary_head (c :: r) h c rfl
    exact parseExpPart_skip (c :: r) (by simp [hc.2.2.1]) (by simp [hc.2.2.2])

theorem parseFracPart_dot (fds rest2 : List Char)
    (hall : ∀ c ∈ fds, isDigitChar c = true) (hne : fds ≠ [])
    (hstop : ∀ c, rest2.head? = some c → isDigitChar c = false) :
    parseFracPart ('.' :: (fds ++ rest2)) = some (fds, rest2) := by
  have htd := takeWhile_all_append fds rest2 hall hstop
  have hemp : fds.isEmpty = false := by
    cases fds with
    | nil => exact absurd rfl hne
    | cons a b => rfl
  simp +decide only [parseFracPart, List.head?_cons, List.tail_cons, if_true,
    htd.1, htd.2, hemp, Bool.false_eq_true, if_false]

theorem parseExpPart_plus (m : ℕ) (rest : List Char)
    (hstop : ∀ c, rest.head? = some c → isDigitChar c = false) :
    parseExpPart ('e' :: '+' :: (natToChars m ++ rest)) = some ((m : ℤ), rest) := by
  have htd := takeWhile_all_append (natToChars m) rest (natToChars_all_digits m) hstop
  have hemp : (natToChars m).isEmpty = false := by
    cases hmc : natToChars m with
    | nil => exact absurd hmc (natToChars_ne_nil m)
    | cons a b => rfl
  simp +decide only [parseExpPart, List.head?_cons, List.tail_cons, true_or, if_true,
    htd.1, htd.2, hemp, Bool.false_eq_true, if_false, parseNatDigits_natToChars]

theorem parseExpPart_minus (m : ℕ) (rest : List Char)
    (hstop : ∀ c, rest.head? = some c → isDigitChar c = false) :
    parseExpPart ('e' :: '-' :: (natToChars m ++ rest)) = some (-(m : ℤ), rest) := by
  have htd := takeWhile_all_append (natToChars m) rest (natToChars_all_digits m) hstop
  have hemp : (natToChars m).isEmpty = false := by
    cases hmc : natToChars m with
    | nil => exact absurd hmc (natToChars_ne_nil m)
    | cons a b => rfl
  simp +decide only [parseExpPart, List.head?_cons, List.tail_cons, true_or, if_true,
    htd.1, htd.2, hemp, Bool.false_eq_true, if_false, parseNatDigits_natToChars]

/-- The common scaffold of a successful number parse: all-digit integer
part, then the fraction and exponent parses on the given continuations. -/
theorem parseNumTail_build (neg : Bool) (ids tail1 fds r2 : List Char) (ev : ℤ)
    (r3 : List Char)
    (hids_all : ∀ c ∈ ids, isDigitChar c = true)
    (hids_ne : ids ≠ [])
    (hstop1 : ∀ c, tail1.head? = some c → isDigitChar c = false)
    (hlead : ¬(1 < ids.length ∧ ids.head? = some '0'))
    (hfrac : parseFracPart tail1 = some (fds, r2))
    (hexp : parseExpPart r2 = some (ev, r3)) :
    parseNumTail neg (ids ++ tail1)
      = some (.num (mkJsonNumber neg (parseNatDigits (ids ++ fds)) fds.length ev), r3) := by
  have htd := takeWhile_all_append ids tail1 hids_all hstop1
  have hemp : ids.isEmpty = false := by
    cases ids with
    | nil => exact absurd rfl hids_ne
    | cons a b => rfl
  simp only [parseNumTail, htd.1, htd.2, hemp, Bool.false_eq_true, if_false]
  rw [if_neg (by simpa using hlead)]
  rw [hfrac]
  simp only [hexp]

/-- Evaluating the canonicalizer at an integer numeral value. -/
theorem mkJsonNumber_int (neg : Bool) (m : ℕ) :
    mkJsonNumber neg m 0 0 = ⟨if neg then -(m : ℤ) else (m : ℤ), 0⟩ := by
  by_cases hm : m = 0
  · subst hm
    cases neg <;> simp [mkJsonNumber]
  · obtain ⟨h1, -, -⟩ := stripTrailingZeros_spec m hm
    have hcast : (m : ℤ) = ((stripTrailingZeros m).1 : ℤ) * 10 ^ (stripTrailingZeros m).2 := by
      exact_mod_cast h1
    simp only [mkJsonNumber]
    rw [if_neg hm]
    rw [if_pos (by omega)]
    have htn : (((stripTrailingZeros m).2 : ℤ) + 0 - ((0 : ℕ) : ℤ)).toNat
        = (stripTrailingZeros m).2 := by omega
    rw [htn]
    have hval : (if neg then -((stripTrailingZeros m).1 : ℤ) else ((stripTrailingZeros m).1 : ℤ))
        * 10 ^ (stripTrailingZeros m).2 = (if neg then -(m : ℤ) else (m : ℤ)) := by
      cases neg <;> simp [hcast]
    rw [hval]

/-- Evaluating the canonicalizer on a stripped mantissa with nonnegative
net exponent. -/
theorem mkJsonNumber_pos (neg : Bool) (d f : ℕ) (e : ℤ) (hd10 : d % 10 ≠ 0)
    (h : (f : ℤ) ≤ e) :
    mkJsonNumber neg d f e
      = ⟨(if neg then -(d : ℤ) else (d : ℤ)) * 10 ^ (e - (f : ℤ)).toNat, 0⟩ := by
  have hd : d ≠ 0 := by omega
  simp only [mkJsonNumber]
  rw [if_neg hd, stripTrailingZeros_of_mod d hd10]
  dsimp only
  rw [if_pos (by omega)]
  have htn : (((0 : ℕ) : ℤ) + e - (f : ℤ)).toNat = (e - (f : ℤ)).toNat := by omega
  rw [htn]

/-- Evaluating the canonicalizer on a stripped mantissa with negative net
exponent. -/
theorem mkJsonNumber_negExp (neg : Bool) (d f : ℕ) (e : ℤ) (hd10 : d % 10 ≠ 0)
    (h : e < (f : ℤ)) :
    mkJsonNumber neg d f e
      = ⟨if neg then -(d : ℤ) else (d : ℤ), ((f : ℤ) - e).toNat⟩ := by
  have hd : d ≠ 0 := by omega
  simp only [mkJsonNumber]
  rw [if_neg hd, stripTrailingZeros_of_mod d hd10]
  dsimp only
  rw [if_neg (by omega)]
  have htn : (-(((0 : ℕ) : ℤ) + e - (f : ℤ))).toNat = ((f : ℤ) - e).toNat := by omega
  rw [htn]

/-- Parsing the integer layout: mantissa digits followed by trailing
zeros. -/
theorem parseNumTail_intLayout (neg : Bool) (d z : ℕ) (hd : d ≠ 0)
    (rest : List Char) (hrest : numBoundary rest = true) :
    parseNumTail neg ((natToChars d ++ List.replicate z '0') ++ rest)
      = some (.num ⟨(if neg then -(d : ℤ) else (d : ℤ)) * 10 ^ z, 0⟩, rest) := by
  have hstop := numBoundary_head rest hrest
  have hall : ∀ c ∈ natToChars d ++ List.replicate z '0', isDigitChar c = true := by
    intro c hc
    rcases List.mem_append.1 hc with h | h
    · exact natToChars_all_digits d c h
    · rw [List.eq_of_mem_replicate h]; decide
  have hhd : (natToChars d ++ List.replicate z '0').head? = (natToChars d).head? :=
    List.head?_append_of_ne_nil _ (natToChars_ne_nil d)
  have hb := parseNumTail_build neg (natToChars d ++ List.replicate z '0') rest [] rest 0 rest
    hall (by simp [natToChars_ne_nil d])
    (fun c hc => (hstop c hc).1)
    (by
      rintro ⟨-, hzero⟩
      rw [hhd] at hzero
      exact natToChars_head_ne_zeroChar d hd '0' hzero rfl)
    (numBoundary_frac rest hrest) (numBoundary_exp rest hrest)
  rw [hb]
  have hval : parseNatDigits ((natToChars d ++ List.replicate z '0') ++ []) = d * 10 ^ z := by
    rw [List.append_nil, parseNatDigits_append, parseNatDigits_natToChars,
      parseNatDigits_replicate_zero, List.length_replicate]
    omega
  rw [hval, show ([] : List Char).length = 0 from rfl, mkJsonNumber_int neg (d * 10 ^ z)]
  have hcast : (if neg then -((d * 10 ^ z : ℕ) : ℤ) else ((d * 10 ^ z : ℕ) : ℤ))
      = (if neg then -(d : ℤ) else (d : ℤ)) * 10 ^ z := by
    cases neg <;> simp
  rw [hcast]

/-- Parsing the fixed-point layout: the decimal point inside the mantissa
digits. -/
theorem parseNumTail_pointLayout (neg : Bool) (d t : ℕ) (hd : d ≠ 0)
    (hd10 : d % 10 ≠ 0) (ht1 : 1 ≤ t) (ht2 : t < (natToChars d).length)
    (rest : List Char) (hrest : numBoundary rest = true) :
    parseNumTail neg ((natToChars d).take t ++ '.' :: ((natToChars d).drop t ++ rest))
      = some (.num ⟨if neg then -(d : ℤ) else (d : ℤ), (natToChars d).length - t⟩, rest) := by
  have hstop := numBoundary_head rest hrest
  have hdropne : (natToChars d).drop t ≠ [] := by
    intro h0
    have := congrArg List.length h0
    simp only [List.length_drop, List.length_nil] at this
    omega
  have hfrac := parseFracPart_dot ((natToChars d).drop t) rest
    (fun c hc => natToChars_all_digits d c (List.drop_subset _ _ hc)) hdropne
    (fun c hc => (hstop c hc).1)
  have hb := parseNumTail_build neg ((natToChars d).take t)
    ('.' :: ((natToChars d).drop t ++ rest)) ((natToChars d).drop t) rest 0 rest
    (fun c hc => natToChars_all_digits d c (List.take_subset _ _ hc))
    (by
      intro h0
      have := congrArg List.length h0
      simp only [List.length_take, List.length_nil] at this
      omega)
    (by intro c hc; simp only [List.head?_cons, Option.some.injEq] at hc; rw [← hc]; decide)
    (by
      rintro ⟨-, hzero⟩
      rw [take_head_eq _ t ht1] at hzero
      exact natToChars_head_ne_zeroChar d hd '0' hzero rfl)
    hfrac (numBoundary_exp rest hrest)
  rw [hb]
  rw [List.take_append_drop, parseNatDigits_natToChars, List.length_drop]
  rw [mkJsonNumber_negExp neg d _ 0 hd10 (by omega)]
  have htn : ((((natToChars d).length - t : ℕ) : ℤ) - 0).toNat
      = (natToChars d).length - t := by omega
  rw [htn]

/-- Parsing the sub-one layout: `0.`, padding zeros, then the mantissa. -/
theorem parseNumTail_smallLayout (neg : Bool) (d w : ℕ) ( _hd : d ≠ 0)
    (hd10 : d % 10 ≠ 0) (rest : List Char) (hrest : numBoundary rest = true) :
    parseNumTail neg ('0' :: '.' :: ((List.replicate w '0' ++ natToChars d) ++ rest))
      = some (.num ⟨if neg then -(d : ℤ) else (d : ℤ), w + (natToChars d).length⟩, rest) := by
  have hstop := numBoundary_head rest hrest
  have hallf : ∀ c ∈ List.replicate w '0' ++ natToChars d, isDigitChar c = true := by
    intro c hc
    rcases List.mem_append.1 hc with h | h
    · rw [List.eq_of_mem_replicate h]; decide
    · exact natToChars_all_digits d c h
  have hfrac := parseFracPart_dot (List.replicate w '0' ++ natToChars d) rest hallf
    (by simp [natToChars_ne_nil d]) (fun c hc => (hstop c hc).1)
  have hb := parseNumTail_build neg ['0']
    ('.' :: ((List.replicate w '0' ++ natToChars d) ++ rest))
    (List.replicate w '0' ++ natToChars d) rest 0 rest
    (by intro c hc; simp only [List.mem_singleton] at hc; rw [hc]; decide)
    (by simp)
    (by intro c hc; simp only [List.head?_cons, Option.some.injEq] at hc; rw [← hc]; decide)
    (by rintro ⟨hlen, -⟩; simp at hlen)
    hfrac (numBoundary_exp rest hrest)
  have hshape : (['0'] ++ ('.' :: ((List.replicate w '0' ++ natToChars d) ++ rest)))
      = '0' :: '.' :: ((List.replicate w '0' ++ natToChars d) ++ rest) := by
    simp
  rw [hshape] at hb
  rw [hb]
  have hval : parseNatDigits (['0'] ++ (List.replicate w '0' ++ natToChars d)) = d := by
    rw [show (['0'] : List Char) ++ (List.replicate w '0' ++ natToChars d)
        = '0' :: (List.replicate w '0' ++ natToChars d) from rfl]
    rw [parseNatDigits_zero_cons, parseNatDigits_zeros_append, parseNatDigits_natToChars]
  rw [hval]
  have hlen : (List.replicate w '0' ++ natToChars d).length = w + (natToChars d).length := by
    simp
  rw [hlen]
  rw [mkJsonNumber_negExp neg d _ 0 hd10 (by
    have h1 : 1 ≤ (natToChars d).length := List.length_pos.2 (natToChars_ne_nil d)
    push_cast
    omega)]
  have htn : (((w + (natToChars d).length : ℕ) : ℤ) - 0).toNat
      = w + (natToChars d).length := by omega
  rw [htn]

/-- Parsing the exponent layout: one-digit or pointed mantissa followed by
an exponent whose parse is given. -/
theorem parseNumTail_expLayout (neg : Bool) (d : ℕ) ( _hd : d ≠ 0)
    (etail : List Char) (ev : ℤ) (rest : List Char)
    (hexp : parseExpPart ('e' :: etail) = some (ev, rest)) :
    parseNumTail neg
      ((if (natToChars d).length = 1 then natToChars d
        else (natToChars d).take 1 ++ '.' :: (natToChars d).drop 1) ++ 'e' :: etail)
      = some (.num (mkJsonNumber neg d ((natToChars d).length - 1) ev), rest) := by
  have hk1 : 1 ≤ (natToChars d).length := List.length_pos.2 (natToChars_ne_nil d)
  by_cases hk : (natToChars d).length = 1
  · rw [if_pos hk]
    have hb := parseNumTail_build neg (natToChars d) ('e' :: etail) [] ('e' :: etail) ev rest
      (natToChars_all_digits d) (natToChars_ne_nil d)
      (by intro c hc; simp only [List.head?_cons, Option.some.injEq] at hc; rw [← hc]; decide)
      (by rintro ⟨hlen, -⟩; omega)
      (parseFracPart_skip _ (by simp)) hexp
    rw [hb]
    rw [List.append_nil, parseNatDigits_natToChars,
      show ([] : List Char).length = 0 from rfl, hk]
  · rw [if_neg hk]
    have hdropne : (natToChars d).drop 1 ≠ [] := by
      intro h0
      have := congrArg List.length h0
      simp only [List.length_drop, List.length_nil] at this
      omega
    have hfrac := parseFracPart_dot ((natToChars d).drop 1) ('e' :: etail)
      (fun c hc => natToChars_all_digits d c (List.drop_subset _ _ hc)) hdropne
      (by intro c hc; simp only [List.head?_cons, Option.some.injEq] at hc; rw [← hc]; decide)
    have hb := parseNumTail_build neg ((natToChars d).take 1)
      ('.' :: ((natToChars d).drop 1 ++ 'e' :: etail)) ((natToChars d).drop 1)
      ('e' :: etail) ev rest
      (fun c hc => natToChars_all_digits d c (List.take_subset _ _ hc))
      (by
        intro h0
        have := congrArg List.length h0
        simp only [List.length_take, List.length_nil] at this
        omega)
      (by intro c hc; simp only [List.head?_cons, Option.some.injEq] at hc; rw [← hc]; decide)
      (by
        rintro ⟨hlen, hzero⟩
        rw [List.length_take] at hlen
        omega)
      hfrac hexp
    have hshape : (natToChars d).take 1 ++ ('.' :: ((natToChars d).drop 1 ++ 'e' :: etail))
        = ((natToChars d).take 1 ++ '.' :: (natToChars d).drop 1) ++ 'e' :: etail := by
      simp
    rw [hshape] at hb
    rw [hb]
    rw [List.take_append_drop, parseNatDigits_natToChars, List.length_drop]

theorem serNumBody_ne_nil (a fexp : ℕ) : serNumBody a fexp ≠ [] := by
  simp only [serNumBody]
  split_ifs <;> simp [natToChars_ne_nil]

/-- The first character of a number layout is a digit. -/
theorem serNumBody_head_digit (a fexp : ℕ) :
    ∀ c t, serNumBody a fexp = c :: t → isDigitChar c = true := by
  intro c t h
  obtain ⟨c0, t0, hds⟩ : ∃ c0 t0, natToChars (stripTrailingZeros a).1 = c0 :: t0 := by
    cases hds : natToChars (stripTrailingZeros a).1 with
    | nil => exact absurd hds (natToChars_ne_nil _)
    | cons c0 t0 => exact ⟨c0, t0, rfl⟩
  have hc0 : isDigitChar c0 = true :=
    natToChars_all_digits _ c0 (by rw [hds]; simp)
  have ht1 : (natToChars (stripTrailingZeros a).1).take 1 = [c0] := by
    rw [hds]
    rfl
  simp only [serNumBody] at h
  split_ifs at h
  · rw [hds, List.cons_append] at h
    injection h with hh _
    rw [← hh]
    exact hc0
  · rename_i hnA hB
    obtain ⟨m, hm⟩ : ∃ m, (((natToChars (stripTrailingZeros a).1).length : ℤ)
        + ((stripTrailingZeros a).2 : ℤ) - (fexp : ℤ)).toNat = m + 1 := by
      refine ⟨(((natToChars (stripTrailingZeros a).1).length : ℤ)
        + ((stripTrailingZeros a).2 : ℤ) - (fexp : ℤ)).toNat - 1, ?_⟩
      omega
    rw [hm, hds, List.take_succ_cons, List.cons_append] at h
    injection h with hh _
    rw [← hh]
    exact hc0
  · injection h with hh _
    rw [← hh]
    decide
  · rw [hds, List.cons_append] at h
    injection h with hh _
    rw [← hh]
    exact hc0
  · rw [hds, List.cons_append] at h
    injection h with hh _
    rw [← hh]
    exact hc0
  · rw [ht1] at h
    simp only [List.cons_append, List.nil_append, List.append_assoc] at h
    injection h with hh _
    rw [← hh]
    exact hc0
  · rw [ht1] at h
    simp only [List.cons_append, List.nil_append, List.append_assoc] at h
    injection h with hh _
    rw [← hh]
    exact hc0

/-- Parsing the serialized layout of the canonical positive decimal
`a / 10 ^ fexp` (the optional minus sign, `neg`, is already consumed). -/
theorem parseNumTail_serNumBody (neg : Bool) (a fexp : ℕ) (ha : a ≠ 0)
    (hcan : fexp = 0 ∨ a % 10 ≠ 0) (rest : List Char)
    (hrest : numBoundary rest = true) :
    parseNumTail neg (serNumBody a fexp ++ rest)
      = some (.num ⟨if neg then -(a : ℤ) else (a : ℤ), fexp⟩, rest) := by
  rcases hcan with hf | h10
  · -- integer scale: the decomposition drives the layout
    subst hf
    rcases hP : stripTrailingZeros a with ⟨d, z⟩
    have hspec := stripTrailingZeros_spec a ha
    rw [hP] at hspec
    obtain ⟨ha1, hd10, hd0⟩ := hspec
    have hk1 : 1 ≤ (natToChars d).length := List.length_pos.2 (natToChars_ne_nil d)
    simp only [serNumBody, hP]
    by_cases h21 : ((natToChars d).length : ℤ) + (z : ℤ) - ((0 : ℕ) : ℤ) ≤ 21
    · rw [if_pos ⟨by omega, h21⟩]
      have htz : (((natToChars d).length : ℤ) + (z : ℤ) - ((0 : ℕ) : ℤ)
          - ((natToChars d).length : ℤ)).toNat = z := by omega
      rw [htz]
      rw [parseNumTail_intLayout neg d z hd0 rest hrest]
      have hval : (if neg then -(d : ℤ) else (d : ℤ)) * 10 ^ z
          = (if neg then -(a : ℤ) else (a : ℤ)) := by
        have hcast : (a : ℤ) = (d : ℤ) * 10 ^ z := by exact_mod_cast ha1
        cases neg <;> simp [hcast]
      rw [hval]
    · rw [if_neg (by omega), if_neg (by omega), if_neg (by omega)]
      rw [if_neg (show ¬((natToChars d).length : ℤ) + (z : ℤ) - ((0 : ℕ) : ℤ) ≤ 0 by omega)]
      have hm0 : (1 : ℤ) ≤ ((natToChars d).length : ℤ) + (z : ℤ) - ((0 : ℕ) : ℤ) - 1 := by
        omega
      have hexp := parseExpPart_plus
        ((((natToChars d).length : ℤ) + (z : ℤ) - ((0 : ℕ) : ℤ) - 1).toNat) rest
        (fun c hc => (numBoundary_head rest hrest c hc).1)
      have hb := parseNumTail_expLayout neg d hd0
        ('+' :: (natToChars ((((natToChars d).length : ℤ) + (z : ℤ) - ((0 : ℕ) : ℤ)
          - 1).toNat) ++ rest))
        (((((natToChars d).length : ℤ) + (z : ℤ) - ((0 : ℕ) : ℤ) - 1).toNat : ℤ)) rest
        (by exact_mod_cast hexp)
      simp only [List.append_assoc, List.cons_append]
      rw [hb]
      rw [mkJsonNumber_pos neg d _ _ hd10 (by push_cast; omega)]
      have htz : (((((natToChars d).length : ℤ) + (z : ℤ) - ((0 : ℕ) : ℤ) - 1).toNat : ℤ)
          - (((natToChars d).length - 1 : ℕ) : ℤ)).toNat = z := by
        push_cast
        omega
      rw [htz]
      have hval : (if neg then -(d : ℤ) else (d : ℤ)) * 10 ^ z
          = (if neg then -(a : ℤ) else (a : ℤ)) := by
        have hcast : (a : ℤ) = (d : ℤ) * 10 ^ z := by exact_mod_cast ha1
        cases neg <;> simp [hcast]
      rw [hval]
  · -- mantissa already stripped: the scale drives the layout
    have hP := stripTrailingZeros_of_mod a h10
    have hk1 : 1 ≤ (natToChars a).length := List.length_pos.2 (natToChars_ne_nil a)
    simp only [serNumBody, hP]
    by_cases hbr1 : ((natToChars a).length : ℤ) ≤ ((natToChars a).length : ℤ)
        + ((0 : ℕ) : ℤ) - (fexp : ℤ)
      ∧ ((natToChars a).length : ℤ) + ((0 : ℕ) : ℤ) - (fexp : ℤ) ≤ 21
    · have hf0 : fexp = 0 := by omega
      subst hf0
      rw [if_pos hbr1]
      have htz : (((natToChars a).length : ℤ) + ((0 : ℕ) : ℤ) - ((0 : ℕ) : ℤ)
          - ((natToChars a).length : ℤ)).toNat = 0 := by omega
      rw [htz]
      rw [show List.replicate 0 '0' = ([] : List Char) from rfl, List.append_nil]
      have hb := parseNumTail_intLayout neg a 0 ha rest hrest
      rw [show List.replicate 0 '0' = ([] : List Char) from rfl, List.append_nil] at hb
      rw [hb]
      have hval : (if neg then -(a : ℤ) else (a : ℤ)) * 10 ^ (0 : ℕ)
          = (if neg then -(a : ℤ) else (a : ℤ)) := by
        cases neg <;> simp
      rw [hval]
    · rw [if_neg hbr1]
      by_cases hbr2 : 0 < ((natToChars a).length : ℤ) + ((0 : ℕ) : ℤ) - (fexp : ℤ)
        ∧ ((natToChars a).length : ℤ) + ((0 : ℕ) : ℤ) - (fexp : ℤ) ≤ 21
      · rw [if_pos hbr2]
        have hfe : 1 ≤ fexp ∧ fexp < (natToChars a).length := by
          constructor
          · by_contra h0
            exact hbr1 ⟨by omega, by omega⟩
          · omega
        have htz : (((natToChars a).length : ℤ) + ((0 : ℕ) : ℤ) - (fexp : ℤ)).toNat
            = (natToChars a).length - fexp := by omega
        rw [htz]
        have hb := parseNumTail_pointLayout neg a ((natToChars a).length - fexp) ha h10
          (by omega) (by omega) rest hrest
        rw [show (natToChars a).take ((natToChars a).length - fexp)
            ++ '.' :: ((natToChars a).drop ((natToChars a).length - fexp) ++ rest)
            = ((natToChars a).take ((natToChars a).length - fexp)
              ++ '.' :: (natToChars a).drop ((natToChars a).length - fexp)) ++ rest
          from by simp] at hb
        rw [hb]
        have hfx : (natToChars a).length - ((natToChars a).length - fexp) = fexp := by
          omega
        rw [hfx]
      · rw [if_neg hbr2]
        by_cases hbr3 : -6 < ((natToChars a).length : ℤ) + ((0 : ℕ) : ℤ) - (fexp : ℤ)
          ∧ ((natToChars a).length : ℤ) + ((0 : ℕ) : ℤ) - (fexp : ℤ) ≤ 0
        · rw [if_pos hbr3]
          have hfe : (natToChars a).length ≤ fexp := by omega
          have htz : (-(((natToChars a).length : ℤ) + ((0 : ℕ) : ℤ) - (fexp : ℤ))).toNat
              = fexp - (natToChars a).length := by omega
          rw [htz]
          have hb := parseNumTail_smallLayout neg a (fexp - (natToChars a).length) ha h10
            rest hrest
          rw [show ('0' : Char) :: '.'
              :: ((List.replicate (fexp - (natToChars a).length) '0' ++ natToChars a) ++ rest)
              = ('0' :: '.' :: (List.replicate (fexp - (natToChars a).length) '0'
                ++ natToChars a)) ++ rest
            from by simp] at hb
          rw [hb]
          have hfx : fexp - (natToChars a).length + (natToChars a).length = fexp := by
            omega
          rw [hfx]
        · rw [if_neg hbr3]
          by_cases hsgn : ((natToChars a).length : ℤ) + ((0 : ℕ) : ℤ) - (fexp : ℤ) ≤ 0
          · -- tiny value: negative exponent form
            rw [if_pos hsgn]
            have hfe : (natToChars a).length + 6 ≤ fexp := by omega
            have hexp := parseExpPart_minus
              ((1 - (((natToChars a).length : ℤ) + ((0 : ℕ) : ℤ) - (fexp : ℤ))).toNat) rest
              (fun c hc => (numBoundary_head rest hrest c hc).1)
            have hb := parseNumTail_expLayout neg a ha
              ('-' :: (natToChars ((1 - (((natToChars a).length : ℤ) + ((0 : ℕ) : ℤ)
                - (fexp : ℤ))).toNat) ++ rest))
              (-((((1 - (((natToChars a).length : ℤ) + ((0 : ℕ) : ℤ)
                - (fexp : ℤ))).toNat : ℕ)) : ℤ)) rest
              (by exact_mod_cast hexp)
            simp only [List.append_assoc, List.cons_append]
            rw [hb]
            rw [mkJsonNumber_negExp neg a _ _ h10 (by push_cast; omega)]
            have htz : ((((natToChars a).length - 1 : ℕ) : ℤ)
                - -((((1 - (((natToChars a).length : ℤ) + ((0 : ℕ) : ℤ)
                  - (fexp : ℤ))).toNat : ℕ)) : ℤ)).toNat = fexp := by
              push_cast
              omega
            rw [htz]
          · -- huge value: positive exponent form
            rw [if_neg hsgn]
            have hfe : 21 < ((natToChars a).length : ℤ) + ((0 : ℕ) : ℤ) - (fexp : ℤ) := by
              omega
            have hexp := parseExpPart_plus
              (((((natToChars a).length : ℤ) + ((0 : ℕ) : ℤ) - (fexp : ℤ)) - 1).toNat) rest
              (fun c hc => (numBoundary_head rest hrest c hc).1)
            have hb := parseNumTail_expLayout neg a ha
              ('+' :: (natToChars (((((natToChars a).length : ℤ) + ((0 : ℕ) : ℤ)
                - (fexp : ℤ)) - 1).toNat) ++ rest))
              ((((((natToChars a).length : ℤ) + ((0 : ℕ) : ℤ) - (fexp : ℤ))
                - 1).toNat : ℤ)) rest
              (by exact_mod_cast hexp)
            simp only [List.append_assoc, List.cons_append]
            rw [hb]
            by_cases hf0 : fexp = 0
            · subst hf0
              rw [mkJsonNumber_pos neg a _ _ h10 (by push_cast; omega)]
              have htz : ((((((natToChars a).length : ℤ) + ((0 : ℕ) : ℤ) - ((0 : ℕ) : ℤ))
                  - 1).toNat : ℤ) - (((natToChars a).length - 1 : ℕ) : ℤ)).toNat = 0 := by
                push_cast
                omega
              rw [htz]
              have hval : (if neg then -(a : ℤ) else (a : ℤ)) * 10 ^ (0 : ℕ)
                  = (if neg then -(a : ℤ) else (a : ℤ)) := by
                cases neg <;> simp
              rw [hval]
            · rw [mkJsonNumber_negExp neg a _ _ h10 (by push_cast; omega)]
              have htz : ((((natToChars a).length - 1 : ℕ) : ℤ)
                  - ((((((natToChars a).length : ℤ) + ((0 : ℕ) : ℤ) - (fexp : ℤ))
                    - 1).toNat : ℕ) : ℤ)).toNat = fexp := by
                push_cast
                omega
              rw [htz]

/-- Sign-specialized form of `parseNumTail_serNumBody` for a negative
number. -/
theorem parseNumTail_serNumBody_neg (a fexp : ℕ) (ha : a ≠ 0)
    (hcan : fexp = 0 ∨ a % 10 ≠ 0) (rest : List Char)
    (hrest : numBoundary rest = true) :
    parseNumTail true (serNumBody a fexp ++ rest)
      = some (.num ⟨-(a : ℤ), fexp⟩, rest) := by
  have h := parseNumTail_serNumBody true a fexp ha hcan rest hrest
  simpa using h

/-- Sign-specialized form of `parseNumTail_serNumBody` for a positive
number. -/
theorem parseNumTail_serNumBody_pos (a fexp : ℕ) (ha : a ≠ 0)
    (hcan : fexp = 0 ∨ a % 10 ≠ 0) (rest : List Char)
    (hrest : numBoundary rest = true) :
    parseNumTail false (serNumBody a fexp ++ rest)
      = some (.num ⟨(a : ℤ), fexp⟩, rest) := by
  have h := parseNumTail_serNumBody false a fexp ha hcan rest hrest
  simpa using h

/-- `skipWs` does not move past a non-whitespace head. -/
theorem skipWs_cons_of {c : Char} (l : List Char) (h : jsonWsChar c = false) :
    skipWs (c :: l) = c :: l := by
  simp [skipWs, List.dropWhile_cons, h]

/-- The first character of a serialized value is never whitespace, a closing
bracket or a closing brace. -/
theorem serJson_head_facts (j : Json) :
    ∀ c t, serJson j = c :: t →
      jsonWsChar c = false ∧ c ≠ ']' ∧ c ≠ rbraceChar := by
  have hd : ∀ d, isDigitChar d = true →
      jsonWsChar d = false ∧ d ≠ ']' ∧ d ≠ rbraceChar := by
    intro d hdig
    have hb := hdig
    simp only [isDigitChar, Bool.and_eq_true, decide_eq_true_eq] at hb
    refine ⟨(digit_char_facts d hdig).1, ?_, ?_⟩ <;>
      (intro he; subst he; revert hb; decide)
  cases j with
  | null =>
    intro c t h
    rw [show serJson .null = nullChars from rfl, nullChars] at h
    injection h with h1 h2
    rw [← h1]
    decide
  | bool b =>
    cases b <;>
      (intro c t h; simp only [serJson, trueChars, falseChars] at h;
        injection h with h1 h2; rw [← h1]; decide)
  | num n =>
    intro c t h
    simp only [serJson, serNumChars] at h
    split_ifs at h
    · injection h with h1 h2
      rw [← h1]
      decide
    · injection h with h1 h2
      rw [← h1]
      decide
    · exact hd c (serNumBody_head_digit n.man.natAbs n.fexp c t h)
  | str s =>
    intro c t h
    simp only [serJson, serStrChars, List.cons_append] at h
    injection h with h1 h2
    rw [← h1]
    decide
  | arr l =>
    intro c t h
    simp only [serJson] at h
    injection h with h1 h2
    rw [← h1]
    decide
  | obj l =>
    intro c t h
    simp only [serJson] at h
    injection h with h1 h2
    rw [← h1]
    decide

/-! ## JSON value round trip -/

theorem serJson_ne_nil (j : Json) : serJson j ≠ [] := by
  cases j with
  | null => simp [serJson, nullChars]
  | bool b => cases b <;> simp [serJson, trueChars, falseChars]
  | num n =>
    simp only [serJson, serNumChars]
    split_ifs
    · simp
    · simp
    · exact serNumBody_ne_nil _ _
  | str s => simp [serJson, serStrChars]
  | arr l => simp [serJson]
  | obj l => simp [serJson]

theorem serElems_cons_head (x : Json) (xs : List Json) :
    ∃ t, serElems (x :: xs) = serJson x ++ t := by
  cases xs with
  | nil => exact ⟨[], by simp [serElems]⟩
  | cons y t => exact ⟨',' :: serElems (y :: t), by simp [serElems]⟩

theorem serFields_cons_head (p : String × Json) (xs : List (String × Json)) :
    ∃ t, serFields (p :: xs) = serStrChars p.1.data ++ t := by
  obtain ⟨k, v⟩ := p
  cases xs with
  | nil => exact ⟨':' :: serJson v, by simp [serFields]⟩
  | cons q t => exact ⟨':' :: serJson v ++ ',' :: serFields (q :: t), by simp [serFields]⟩

theorem jsonFuel_arr_cons (x : Json) (xs : List Json) :
    jsonFuel (.arr (x :: xs)) = jsonFuelElems (x :: xs) + 1 := by
  simp [jsonFuel]

theorem jsonFuel_obj_cons (p : String × Json) (xs : List (String × Json)) :
    jsonFuel (.obj (p :: xs)) = jsonFuelFields (p :: xs) + 1 := by
  simp [jsonFuel]

theorem jsonFuelElems_single (j : Json) : jsonFuelElems [j] = jsonFuel j + 1 := by
  simp [jsonFuelElems]

theorem jsonFuelElems_cons2 (x y : Json) (t : List Json) :
    jsonFuelElems (x :: y :: t) = jsonFuel x + jsonFuelElems (y :: t) + 1 := by
  simp [jsonFuelElems]

theorem jsonFuelFields_single (k : String) (v : Json) :
    jsonFuelFields [(k, v)] = jsonFuel v + 1 := by
  simp [jsonFuelFields]

theorem jsonFuelFields_cons2 (k : String) (v : Json) (q : String × Json)
    (t : List (String × Json)) :
    jsonFuelFields ((k, v) :: q :: t) = jsonFuel v + jsonFuelFields (q :: t) + 1 := by
  simp [jsonFuelFields]

theorem jsonFuel_pos (j : Json) : 1 ≤ jsonFuel j := by
  cases j with
  | arr l => cases l with
    | nil => simp [jsonFuel]
    | cons x xs => rw [jsonFuel_arr_cons]; omega
  | obj l => cases l with
    | nil => simp [jsonFuel]
    | cons p xs => rw [jsonFuel_obj_cons]; omega
  | null => simp [jsonFuel]
  | bool b => simp [jsonFuel]
  | num n => simp [jsonFuel]
  | str s => simp [jsonFuel]

theorem jsonFuelElems_pos (l : List Json) : 1 ≤ jsonFuelElems l := by
  cases l with
  | nil => simp [jsonFuelElems]
  | cons x xs => cases xs with
    | nil => rw [jsonFuelElems_single]; omega
    | cons y t => rw [jsonFuelElems_cons2]; omega

theorem jsonFuelFields_pos (l : List (String × Json)) : 1 ≤ jsonFuelFields l := by
  cases l with
  | nil => simp [jsonFuelFields]
  | cons p xs =>
    obtain ⟨k, v⟩ := p
    cases xs with
    | nil => rw [jsonFuelFields_single]; omega
    | cons q t => rw [jsonFuelFields_cons2]; omega

mutual

/-- Parsing a serialized canonical JSON value with sufficient fuel and a
continuation that cannot extend a numeral returns the value. -/
theorem parseJsonValue_ser (j : Json) (hcan : jsonCanon j = true) (fuel : ℕ)
    (hfuel : jsonFuel j ≤ fuel)
    (rest : List Char) (hrest : numBoundary rest = true) :
    parseJsonValue fuel (serJson j ++ rest) = some (j, rest) := by
  obtain ⟨f, rfl⟩ : ∃ f, fuel = f + 1 := by
    have h1 := jsonFuel_pos j
    exact ⟨fuel - 1, by omega⟩
  cases j with
  | null => simp +decide [serJson, nullChars, parseJsonValue, skipWs]
  | bool b => cases b <;> simp +decide [serJson, trueChars, falseChars, parseJsonValue, skipWs]
  | num n =>
    have hcann : n.fexp = 0 ∨ n.man % 10 ≠ 0 := by
      have h := hcan
      simp only [jsonCanon, JsonNumber.canonical, Bool.or_eq_true, beq_iff_eq,
        bne_iff_ne, ne_eq] at h
      tauto
    by_cases h0 : n.man = 0
    · have hf : n.fexp = 0 := by
        rcases hcann with h | h
        · exact h
        · rw [h0] at h
          simp at h
      have hn00 : n = ⟨0, 0⟩ := by
        obtain ⟨man, fexp⟩ := n
        simp only [JsonNumber.mk.injEq]
        exact ⟨by simpa using h0, by simpa using hf⟩
      subst hn00
      have hser : serJson (.num ⟨0, 0⟩) ++ rest = '0' :: rest := by
        simp [serJson, serNumChars]
      rw [hser]
      have hstop := numBoundary_head rest hrest
      have hnum : parseNumTail false ('0' :: rest) = some (.num ⟨0, 0⟩, rest) := by
        have hb := parseNumTail_build false ['0'] rest [] rest 0 rest
          (by intro c hc; simp only [List.mem_singleton] at hc; rw [hc]; decide)
          (by simp)
          (fun c hc => (hstop c hc).1)
          (by rintro ⟨hlen, -⟩; simp at hlen)
          (numBoundary_frac rest hrest) (numBoundary_exp rest hrest)
        rw [show (['0'] : List Char) ++ rest = '0' :: rest from rfl] at hb
        rw [hb]
        rw [show parseNatDigits (['0'] ++ ([] : List Char)) = 0 from rfl]
        rw [show (([] : List Char)).length = 0 from rfl]
        rw [show mkJsonNumber false 0 0 0 = ⟨0, 0⟩ from by simp [mkJsonNumber]]
      simp +decide [parseJsonValue, skipWs, hnum]
    · by_cases hneg : n.man < 0
      · have ha : n.man.natAbs ≠ 0 := by omega
        have hc2 : n.fexp = 0 ∨ n.man.natAbs % 10 ≠ 0 := by
          rcases hcann with h | h
          · exact Or.inl h
          · exact Or.inr (by omega)
        have hser : serJson (.num n) ++ rest
            = '-' :: (serNumBody n.man.natAbs n.fexp ++ rest) := by
          simp [serJson, serNumChars, h0, hneg]
        rw [hser]
        have hnum := parseNumTail_serNumBody_neg n.man.natAbs n.fexp ha hc2 rest hrest
        have hres : (⟨-(n.man.natAbs : ℤ), n.fexp⟩ : JsonNumber) = n := by
          obtain ⟨man, fexp⟩ := n
          simp only [JsonNumber.mk.injEq, and_true]
          simp only at hneg
          omega
        rw [hres] at hnum
        simp +decide [parseJsonValue, skipWs, hnum]
      · have ha : n.man.natAbs ≠ 0 := by omega
        have hc2 : n.fexp = 0 ∨ n.man.natAbs % 10 ≠ 0 := by
          rcases hcann with h | h
          · exact Or.inl h
          · exact Or.inr (by omega)
        obtain ⟨c, tcs, hbody⟩ : ∃ c tcs, serNumBody n.man.natAbs n.fexp = c :: tcs := by
          cases hs : serNumBody n.man.natAbs n.fexp with
          | nil => exact absurd hs (serNumBody_ne_nil _ _)
          | cons c tcs => exact ⟨c, tcs, rfl⟩
        have hcd : isDigitChar c = true := serNumBody_head_digit _ _ c tcs hbody
        have hfacts := digit_char_facts c hcd
        have hser : serJson (.num n) ++ rest = c :: (tcs ++ rest) := by
          simp [serJson, serNumChars, h0, hneg, hbody]
        have hnum := parseNumTail_serNumBody_pos n.man.natAbs n.fexp ha hc2 rest hrest
        have hres : (⟨(n.man.natAbs : ℤ), n.fexp⟩ : JsonNumber) = n := by
          obtain ⟨man, fexp⟩ := n
          simp only [JsonNumber.mk.injEq, and_true]
          simp only at hneg h0
          omega
        rw [hres] at hnum
        rw [hbody, List.cons_append] at hnum
        rw [hser]
        simp +decide [parseJsonValue, skipWs_cons_of _ hfacts.1, hfacts.2.1, hfacts.2.2.1,
          hfacts.2.2.2.1, hfacts.2.2.2.2.1, hfacts.2.2.2.2.2.1, hcd, hnum]
  | str s =>
    have hser : serJson (.str s) ++ rest
        = quoteChar :: (s.data.flatMap escapeChar ++ quoteChar :: rest) := by
      simp [serJson, serStrChars]
    rw [hser]
    have hstr := parseJStringBody_ser s.data rest
    simp +decide [parseJsonValue, skipWs, hstr, stringMk_data]
  | arr l =>
    cases l with
    | nil => simp +decide [serJson, serElems, parseJsonValue, skipWs]
    | cons x xs =>
      obtain ⟨c, tcs, hcs⟩ : ∃ c tcs, serJson x = c :: tcs := by
        cases hs : serJson x with
        | nil => exact absurd hs (serJson_ne_nil x)
        | cons c tcs => exact ⟨c, tcs, rfl⟩
      obtain ⟨t0, ht0⟩ := serElems_cons_head x xs
      have hx := serJson_head_facts x c tcs hcs
      have hskip : skipWs (serElems (x :: xs) ++ ']' :: rest)
          = serElems (x :: xs) ++ ']' :: rest := by
        rw [ht0, hcs]
        simp only [List.cons_append, List.append_assoc]
        exact skipWs_cons_of _ hx.1
      have hhd : ((serElems (x :: xs) ++ ']' :: rest).head? = some ']') = False := by
        rw [ht0, hcs]
        simp [hx.2.1]
      have hfe : jsonFuelElems (x :: xs) ≤ f := by
        rw [jsonFuel_arr_cons] at hfuel
        omega
      have hce : jsonCanonElems (x :: xs) = true := by
        have h := hcan
        simp only [jsonCanon] at h
        exact h
      have hpe := parseJsonElems_ser (x :: xs) hce (by simp) f hfe rest
      have hser : serJson (.arr (x :: xs)) ++ rest
          = '[' :: (serElems (x :: xs) ++ ']' :: rest) := by
        simp [serJson]
      rw [hser]
      have hsk0 : skipWs ('[' :: (serElems (x :: xs) ++ ']' :: rest))
          = '[' :: (serElems (x :: xs) ++ ']' :: rest) := skipWs_cons_of _ (by decide)
      simp +decide [parseJsonValue, hsk0, hskip, hhd, hpe]
      constructor
      · rw [ht0, hcs]
        simp [hx.2.1]
      · rw [ht0, hcs]
        simp
  | obj l =>
    cases l with
    | nil => simp +decide [serJson, serFields, parseJsonValue, skipWs]
    | cons p xs =>
      obtain ⟨t0, ht0⟩ := serFields_cons_head p xs
      have hskip : skipWs (serFields (p :: xs) ++ rbraceChar :: rest)
          = serFields (p :: xs) ++ rbraceChar :: rest := by
        rw [ht0]
        simp only [serStrChars, List.cons_append, List.append_assoc]
        exact skipWs_cons_of _ (by decide)
      have hhd : ((serFields (p :: xs) ++ rbraceChar :: rest).head? = some rbraceChar) = False := by
        rw [ht0]
        simp only [serStrChars, List.cons_append, List.head?_cons]
        simp +decide
      have hfe : jsonFuelFields (p :: xs) ≤ f := by
        rw [jsonFuel_obj_cons] at hfuel
        omega
      have hcf : jsonCanonFields (p :: xs) = true := by
        have h := hcan
        simp only [jsonCanon] at h
        exact h
      have hpf := parseJsonFields_ser (p :: xs) hcf (by simp) f hfe rest
      have hser : serJson (.obj (p :: xs)) ++ rest
          = lbraceChar :: (serFields (p :: xs) ++ rbraceChar :: rest) := by
        simp [serJson]
      rw [hser]
      have hsk0 : skipWs (lbraceChar :: (serFields (p :: xs) ++ rbraceChar :: rest))
          = lbraceChar :: (serFields (p :: xs) ++ rbraceChar :: rest) :=
        skipWs_cons_of _ (by decide)
      simp +decide [parseJsonValue, hsk0, hskip, hhd, hpf]
      constructor
      · rw [ht0]
        simp only [serStrChars, List.cons_append, List.head?_cons]
        simp +decide
      · rw [ht0]
        simp [serStrChars]

/-- Parsing serialized array elements followed by the closing bracket. -/
theorem parseJsonElems_ser (l : List Json) (hcan : jsonCanonElems l = true)
    (hl : l ≠ []) (fuel : ℕ)
    (hfuel : jsonFuelElems l ≤ fuel) (rest : List Char) :
    parseJsonElems fuel (serElems l ++ ']' :: rest) = some (l, rest) := by
  obtain ⟨f, rfl⟩ : ∃ f, fuel = f + 1 := ⟨fuel - 1, by
    have := jsonFuelElems_pos l
    omega⟩
  cases l with
  | nil => exact absurd rfl hl
  | cons x xs =>
    have hcs : jsonCanon x = true ∧ jsonCanonElems xs = true := by
      have h := hcan
      simp only [jsonCanonElems, Bool.and_eq_true] at h
      exact h
    cases xs with
    | nil =>
      rw [jsonFuelElems_single] at hfuel
      have hpv := parseJsonValue_ser x hcs.1 f
        (by omega) (']' :: rest) (by simp +decide [numBoundary])
      simp only [serElems]
      simp +decide [parseJsonElems, hpv, skipWs]
    | cons y t =>
      rw [jsonFuelElems_cons2] at hfuel
      have hpv := parseJsonValue_ser x hcs.1 f
        (by omega)
        (',' :: (serElems (y :: t) ++ ']' :: rest)) (by simp +decide [numBoundary])
      have hpe := parseJsonElems_ser (y :: t) hcs.2 (by simp) f
        (by omega) rest
      have hser : serElems (x :: y :: t) ++ ']' :: rest
          = serJson x ++ (',' :: (serElems (y :: t) ++ ']' :: rest)) := by
        simp [serElems]
      rw [hser]
      simp +decide [parseJsonElems, hpv, hpe, skipWs]

/-- Parsing serialized object fields followed by the closing brace. -/
theorem parseJsonFields_ser (l : List (String × Json)) (hcan : jsonCanonFields l = true)
    (hl : l ≠ []) (fuel : ℕ)
    (hfuel : jsonFuelFields l ≤ fuel) (rest : List Char) :
    parseJsonFields fuel (serFields l ++ rbraceChar :: rest) = some (l, rest) := by
  obtain ⟨f, rfl⟩ : ∃ f, fuel = f + 1 := ⟨fuel - 1, by
    have := jsonFuelFields_pos l
    omega⟩
  cases l with
  | nil => exact absurd rfl hl
  | cons p xs =>
    obtain ⟨k, v⟩ := p
    have hcs : jsonCanon v = true ∧ jsonCanonFields xs = true := by
      have h := hcan
      simp only [jsonCanonFields, Bool.and_eq_true] at h
      exact h
    cases xs with
    | nil =>
      rw [jsonFuelFields_single] at hfuel
      have hpv := parseJsonValue_ser v hcs.1 f
        (by omega) (rbraceChar :: rest) (by simp +decide [numBoundary])
      have hstr := parseJStringBody_ser k.data
        (':' :: (serJson v ++ rbraceChar :: rest))
      have hser : serFields [(k, v)] ++ rbraceChar :: rest
          = quoteChar :: (k.data.flatMap escapeChar
              ++ quoteChar :: (':' :: (serJson v ++ rbraceChar :: rest))) := by
        simp [serFields, serStrChars]
      rw [hser]
      simp +decide [parseJsonFields, hstr, hpv, skipWs, stringMk_data]
    | cons q t =>
      rw [jsonFuelFields_cons2] at hfuel
      have hpv := parseJsonValue_ser v hcs.1 f
        (by omega)
        (',' :: (serFields (q :: t) ++ rbraceChar :: rest)) (by simp +decide [numBoundary])
      have hpf := parseJsonFields_ser (q :: t) hcs.2 (by simp) f
        (by omega) rest
      have hstr := parseJStringBody_ser k.data
        (':' :: (serJson v ++ ',' :: (serFields (q :: t) ++ rbraceChar :: rest)))
      have hser : serFields ((k, v) :: q :: t) ++ rbraceChar :: rest
          = quoteChar :: (k.data.flatMap escapeChar
              ++ quoteChar :: (':' :: (serJson v
                ++ ',' :: (serFields (q :: t) ++ rbraceChar :: rest)))) := by
        simp [serFields, serStrChars]
      rw [hser]
      simp +decide [parseJsonFields, hstr, hpv, hpf, skipWs, stringMk_data]

end

theorem serStrChars_length_ge (s : List Char) : 2 ≤ (serStrChars s).length := by
  simp [serStrChars]

mutual

/-- The fuel bound of a value is at most its serialized length. -/
theorem jsonFuel_le_ser (j : Json) : jsonFuel j ≤ (serJson j).length := by
  cases j with
  | null => simp [jsonFuel, serJson, nullChars]
  | bool b => cases b <;> simp [jsonFuel, serJson, trueChars, falseChars]
  | num n =>
    have h1 : serJson (.num n) ≠ [] := serJson_ne_nil _
    have h2 : jsonFuel (.num n) = 1 := by simp [jsonFuel]
    rw [h2]
    cases hs : serJson (.num n) with
    | nil => exact absurd hs h1
    | cons c t => simp
  | str s => simp [jsonFuel, serJson, serStrChars]
  | arr l =>
    cases l with
    | nil => simp [jsonFuel, serJson, serElems]
    | cons x xs =>
      rw [jsonFuel_arr_cons]
      have he := jsonFuelElems_le_ser (x :: xs) (by simp)
      have hlen : (serJson (.arr (x :: xs))).length = (serElems (x :: xs)).length + 2 := by
        simp [serJson]
      omega
  | obj l =>
    cases l with
    | nil => simp [jsonFuel, serJson, serFields]
    | cons p xs =>
      rw [jsonFuel_obj_cons]
      have he := jsonFuelFields_le_ser (p :: xs) (by simp)
      have hlen : (serJson (.obj (p :: xs))).length = (serFields (p :: xs)).length + 2 := by
        simp [serJson]
      omega

/-- The fuel bound of nonempty elements is at most their serialized length
plus one. -/
theorem jsonFuelElems_le_ser (l : List Json) (hl : l ≠ []) :
    jsonFuelElems l ≤ (serElems l).length + 1 := by
  cases l with
  | nil => exact absurd rfl hl
  | cons x xs =>
    cases xs with
    | nil =>
      rw [jsonFuelElems_single]
      have := jsonFuel_le_ser x
      have hlen : (serElems [x]).length = (serJson x).length := by simp [serElems]
      omega
    | cons y t =>
      rw [jsonFuelElems_cons2]
      have h1 := jsonFuel_le_ser x
      have h2 := jsonFuelElems_le_ser (y :: t) (by simp)
      have hlen : (serElems (x :: y :: t)).length
          = (serJson x).length + 1 + (serElems (y :: t)).length := by
        simp [serElems]
        omega
      omega

/-- The fuel bound of nonempty fields is at most their serialized length
plus one. -/
theorem jsonFuelFields_le_ser (l : List (String × Json)) (hl : l ≠ []) :
    jsonFuelFields l ≤ (serFields l).length + 1 := by
  cases l with
  | nil => exact absurd rfl hl
  | cons p xs =>
    obtain ⟨k, v⟩ := p
    cases xs with
    | nil =>
      rw [jsonFuelFields_single]
      have h1 := jsonFuel_le_ser v
      have h2 := serStrChars_length_ge k.data
      have hlen : (serFields [(k, v)]).length
          = (serStrChars k.data).length + 1 + (serJson v).length := by
        simp [serFields]
        omega
      omega
    | cons q t =>
      rw [jsonFuelFields_cons2]
      have h1 := jsonFuel_le_ser v
      have h2 := jsonFuelFields_le_ser (q :: t) (by simp)
      have h3 := serStrChars_length_ge k.data
      have hlen : (serFields ((k, v) :: q :: t)).length
          = (serStrChars k.data).length + 1 + (serJson v).length + 1
            + (serFields (q :: t)).length := by
        simp [serFields]
        omega
      omega

end

/-- `JSON.parse` inverts `JSON.stringify` on the embedded JSON fragment. -/
theorem jsonParse_serJson (j : Json) (hcan : jsonCanon j = true) :
    jsonParse (String.mk (serJson j)) = some j := by
  have hle := jsonFuel_le_ser j
  have h := parseJsonValue_ser j hcan ((serJson j).length + 1) (by omega) []
    (by simp [numBoundary])
  rw [List.append_nil] at h
  simp only [jsonParse]
  simp [h, skipWs]

/-! ## Theorems about the period boundary calculator -/

/-- Claim C1 (counterexample): the claim speaks of six fixed-lookback
enumeration values covering 1, 3, 7, 30 and 90 days, but the enum defines no
3-day member (`PeriodLengthInDays.Three` is `undefined`), so exactly four
members — One, Seven, Thirty, ThreeMonths — take the fixed-lookback branch,
not six. -/
theorem fixedLookbackMembers_count :
    fixedLookbackMembers = [.One, .Seven, .Thirty, .ThreeMonths]
    ∧ fixedLookbackMembers.length = 4 ∧ fixedLookbackMembers.length ≠ 6 := by
  refine ⟨by decide, by decide, by decide⟩

/-- Claim C1 (amended): for each of the four fixed-lookback enumeration
values actually present (1, 7, 30 and 90 days), `calculatePeriodBoundaries`
returns `end` equal to the current time and `start` equal to `end` minus N
days, so `end - start` in milliseconds is exactly `N * 86400000`. -/
theorem calculatePeriodBoundaries_fixedLookback (p : PeriodLengthInDays)
    (hp : p ∈ fixedLookbackMembers) (c : Clock) :
    (calculatePeriodBoundaries c p.code).«end» = (c.nowMs : ℚ)
    ∧ (calculatePeriodBoundaries c p.code).start
        = (c.nowMs : ℚ) - (p.code : ℚ) * 86400000
    ∧ (calculatePeriodBoundaries c p.code).«end»
        - (calculatePeriodBoundaries c p.code).start = (p.code : ℚ) * 86400000 := by
  fin_cases hp <;>
    refine ⟨?_, ?_, ?_⟩ <;>
      simp [calculatePeriodBoundaries, nowInSeconds, PeriodLengthInDays.code,
        fixedLookbackCodes, threeAccess] <;>
      ring

/-- Witness for `calculatePeriodBoundaries_fixedLookback` at the one-day
period and a concrete clock. -/
theorem calculatePeriodBoundaries_fixedLookback_witness :
    PeriodLengthInDays.One ∈ fixedLookbackMembers
    ∧ ((calculatePeriodBoundaries ⟨1700000000123, 1699999999000, 2, 14⟩
          PeriodLengthInDays.One.code).«end» = ((1700000000123 : ℤ) : ℚ)
      ∧ (calculatePeriodBoundaries ⟨1700000000123, 1699999999000, 2, 14⟩
          PeriodLengthInDays.One.code).start
          = ((1700000000123 : ℤ) : ℚ) - (PeriodLengthInDays.One.code : ℚ) * 86400000
      ∧ (calculatePeriodBoundaries ⟨1700000000123, 1699999999000, 2, 14⟩
          PeriodLengthInDays.One.code).«end»
          - (calculatePeriodBoundaries ⟨1700000000123, 1699999999000, 2, 14⟩
              PeriodLengthInDays.One.code).start
          = (PeriodLengthInDays.One.code : ℚ) * 86400000) :=
  ⟨by decide,
   calculatePeriodBoundaries_fixedLookback PeriodLengthInDays.One (by decide)
     ⟨1700000000123, 1699999999000, 2, 14⟩⟩

/-- Claim C5: `calculatePeriodBoundaries(Today)` returns `start` equal to the
epoch-millisecond timestamp of local midnight of the current day and `end`
equal to the current time, for any current time. -/
theorem calculatePeriodBoundaries_today (c : Clock) :
    (calculatePeriodBoundaries c PeriodLengthInDays.Today.code).start
      = (c.midnightMs : ℚ)
    ∧ (calculatePeriodBoundaries c PeriodLengthInDays.Today.code).«end»
      = (c.nowMs : ℚ) := by
  have hcontains : some (11 : ℤ) ∉ fixedLookbackCodes := by
    decide
  refine ⟨?_, ?_⟩ <;>
    simp [calculatePeriodBoundaries, hcontains, nowInSeconds, todaySeconds,
      PeriodLengthInDays.code]

/-- Claim C6: `calculatePeriodBoundaries(AllTime)` returns `start = 0` and
`end` = the current time in milliseconds, and every integer input outside the
period enumeration produces that same All-Time result; the embedded function
is total over `ℤ`. -/
theorem calculatePeriodBoundaries_allTime_default (c : Clock) :
    calculatePeriodBoundaries c PeriodLengthInDays.AllTime.code = ⟨0, (c.nowMs : ℚ)⟩
    ∧ ∀ code : ℤ, code ∉ periodEnumCodes →
        calculatePeriodBoundaries c code = ⟨0, (c.nowMs : ℚ)⟩ := by
  constructor
  · have hcontains : some (-1 : ℤ) ∉ fixedLookbackCodes := by
      decide
    ext <;>
      simp [calculatePeriodBoundaries, hcontains, nowInSeconds,
        PeriodLengthInDays.code]
  · intro code hcode
    have h1 : code ≠ 1 := fun h => hcode (by subst h; decide)
    have h7 : code ≠ 7 := fun h => hcode (by subst h; decide)
    have h30 : code ≠ 30 := fun h => hcode (by subst h; decide)
    have h90 : code ≠ 90 := fun h => hcode (by subst h; decide)
    have h11 : code ≠ 11 := fun h => hcode (by subst h; decide)
    have h77 : code ≠ 77 := fun h => hcode (by subst h; decide)
    have h33 : code ≠ 33 := fun h => hcode (by subst h; decide)
    have h0 : code ≠ 0 := fun h => hcode (by subst h; decide)
    have hcontains : some code ∉ fixedLookbackCodes := by
      simp [fixedLookbackCodes, threeAccess, PeriodLengthInDays.code, h1, h7, h30, h90]
    ext <;>
      simp [calculatePeriodBoundaries, hcontains, nowInSeconds,
        PeriodLengthInDays.code, h11, h77, h33, h0]

/-- Witness for `calculatePeriodBoundaries_allTime_default` at a concrete
clock and the out-of-enumeration input 999. -/
theorem calculatePeriodBoundaries_allTime_default_witness :
    ((999 : ℤ) ∉ periodEnumCodes)
    ∧ calculatePeriodBoundaries ⟨1700000000123, 1699999999000, 2, 14⟩ 999
        = ⟨0, ((1700000000123 : ℤ) : ℚ)⟩ :=
  ⟨by decide,
   (calculatePeriodBoundaries_allTime_default
      ⟨1700000000123, 1699999999000, 2, 14⟩).2 999 (by decide)⟩

/-! ## Claim theorems: safe JSON, storage helpers, crypto random, isNumeric -/

/-- Claim C8: for every JSON-safe value `x` — null, booleans, finite
numbers (carried as the canonical exact decimals they print as, covering
fractional and exponent-range values), strings, and arrays and plain
objects of these — `safeJsonParse(safeJsonStringify(x))` is structurally
equal to `x`, and `safeJsonStringify` applied to a self-referential
(circular) object returns null rather than throwing. -/
theorem safeJson_roundTrip :
    (∀ x : Json, jsonCanon x = true →
        safeJsonParse (safeJsonStringify (.value x)) = some x)
    ∧ safeJsonStringify .circular = none := by
  constructor
  · intro x hcan
    have hne : String.mk (serJson x) ≠ "" := by
      intro h
      have hdata := congrArg String.data h
      simp at hdata
      exact serJson_ne_nil x hdata
    simp [safeJsonStringify, jsonStringifyExc, safeJsonParse, hne, jsonParseExc,
      jsonParse_serJson x hcan]
  · rfl

/-- Witness for `safeJson_roundTrip` at a concrete object mixing
fractional, exponent-range and zero numbers with strings and nesting. -/
theorem safeJson_roundTrip_witness :
    jsonCanon jsonSample = true
    ∧ safeJsonParse (safeJsonStringify (.value jsonSample)) = some jsonSample :=
  ⟨by simp +decide [jsonSample, jsonCanon, jsonCanonElems, jsonCanonFields,
      JsonNumber.canonical],
   safeJson_roundTrip.1 jsonSample
     (by simp +decide [jsonSample, jsonCanon, jsonCanonElems, jsonCanonFields,
       JsonNumber.canonical])⟩

/-- Claim C2 (code bug): with a store whose every underlying call throws
(disabled storage, quota), `getParsed` of `createSafeTypedLocalStorage` and
`get`/`remove` of `createLocalStorageHelper` propagate the exception — the
claim (and the helper's own doc comment) says no operation ever throws.  The
remaining operations do swallow the exception. -/
theorem storageHelper_throw_bug :
    stsGetParsed "k" ⟨[], true⟩ = .error ()
    ∧ clGet "k" ⟨[], true⟩ = .error ()
    ∧ clRemove "k" ⟨[], true⟩ = .error ()
    ∧ (∀ key value s, ∃ s2, stsSet key value s = .ok s2)
    ∧ (∀ key s, ∃ r, stsGet key s = .ok r)
    ∧ (∀ key s, ∃ s2, stsRemove key s = .ok s2)
    ∧ (∀ key value s, ∃ s2, clSet key value s = .ok s2)
    ∧ (∀ key s, ∃ r, clGetParsed key s = .ok r) := by
  refine ⟨rfl, rfl, rfl, ?_, ?_, ?_, ?_, ?_⟩
  · intro key value s
    by_cases h : s.throws <;> simp [stsSet, lsSetItem, h]
  · intro key s
    by_cases h : s.throws <;> simp [stsGet, lsGetItem, h]
  · intro key s
    by_cases h : s.throws <;> simp [stsRemove, lsRemoveItem, h]
  · intro key value s
    by_cases h : s.throws <;> simp [clSet, lsSetItem, h]
  · intro key s
    cases hinner : clGetParsedInner key s with
    | ok r => exact ⟨r, by simp [clGetParsed, hinner]⟩
    | error e => exact ⟨none, by simp [clGetParsed, hinner]⟩

/-- The `lsutils` module flag is `true` after any positive number of factory
calls. -/
theorem clFlagAfter_pos (n : ℕ) : clFlagAfter (n + 1) = true := by
  induction n with
  | zero => rfl
  | succ n ih =>
    rw [clFlagAfter, ih]
    simp [createLocalStorageHelper, ih]

/-- The typed-helper module flag is `true` after any positive number of
factory calls. -/
theorem stsFlagAfter_pos (n : ℕ) : stsFlagAfter (n + 1) = true := by
  induction n with
  | zero => rfl
  | succ n ih =>
    rw [stsFlagAfter, ih]
    simp [createSafeTypedLocalStorage, ih]

/-- Claim C4: the first call to either bounded storage-helper factory
succeeds and returns the helper instance; every subsequent call in the same
process throws the initialization-conflict error. -/
theorem createHelper_singleton :
    createLocalStorageHelper (clFlagAfter 0) = .ok (clHelper, true)
    ∧ (∀ n : ℕ, 1 ≤ n →
        createLocalStorageHelper (clFlagAfter n)
          = .error "[LS] LocalStorageHelper already initialized!")
    ∧ createSafeTypedLocalStorage (stsFlagAfter 0) = .ok (stsHelper, true)
    ∧ (∀ n : ℕ, 1 ≤ n →
        createSafeTypedLocalStorage (stsFlagAfter n)
          = .error "[LS] LocalStorageHelper already initialized!") := by
  refine ⟨rfl, ?_, rfl, ?_⟩
  · intro n hn
    obtain ⟨m, rfl⟩ : ∃ m, n = m + 1 := ⟨n - 1, by omega⟩
    rw [clFlagAfter_pos m]
    rfl
  · intro n hn
    obtain ⟨m, rfl⟩ : ∃ m, n = m + 1 := ⟨n - 1, by omega⟩
    rw [stsFlagAfter_pos m]
    rfl

/-- Witness for `createHelper_singleton` at the second call. -/
theorem createHelper_singleton_witness :
    createLocalStorageHelper (clFlagAfter 1)
        = .error "[LS] LocalStorageHelper already initialized!"
    ∧ createSafeTypedLocalStorage (stsFlagAfter 1)
        = .error "[LS] LocalStorageHelper already initialized!" :=
  ⟨createHelper_singleton.2.1 1 (by decide), createHelper_singleton.2.2.2 1 (by decide)⟩

/-- Claim C3 (code bug): at `min = 0`, `max = 2^32 - 1` the sanitized range
is exactly `2^32`; the guard (`range > 2^32`) does not fall back, the
rejection limit computes to `0`, and no 32-bit draw is ever accepted — the
loop runs forever instead of returning an integer in the sanitized range. -/
theorem getCryptoRandomInt_hangs_at_2pow32 :
    cryptoParams (some (.finite 0)) (some (.finite 4294967295))
      = ⟨0, 4294967295, 4294967296⟩
    ∧ cryptoLimit 4294967296 = 0
    ∧ ∀ draws : List ℕ, (∀ u ∈ draws, u < 2 ^ 32) →
        getCryptoRandomInt (some (.finite 0)) (some (.finite 4294967295)) draws = none := by
  have hp : cryptoParams (some (.finite 0)) (some (.finite 4294967295))
      = ⟨0, 4294967295, 4294967296⟩ := by
    have hr0 : jsRound 0 = 0 := by norm_num [jsRound]
    have hr1 : jsRound 4294967295 = 4294967295 := by norm_num [jsRound]
    simp only [cryptoParams, sanitizeBound, hr0, hr1, clampSafe, maxSafeInteger]
    norm_num
  refine ⟨hp, by decide, ?_⟩
  intro draws hdraws
  simp only [getCryptoRandomInt, hp]
  have hnone : draws.find?
      (fun u => decide ((u : ℤ) < cryptoLimit (CryptoParams.mk 0 4294967295 4294967296).range))
        = none := by
    rw [List.find?_eq_none]
    intro u hu
    have hl : cryptoLimit (CryptoParams.mk 0 4294967295 4294967296).range = 0 := by decide
    rw [hl]
    simp only [decide_eq_true_eq, not_lt]
    simp only [List.mem_flatMap, List.bind_eq_flatMap, List.mem_pure, bind_pure_comp,
      List.mem_map] at hu
    obtain ⟨a, ha, rfl⟩ := hu
    positivity
  rw [hnone]

/-- Witness for `getCryptoRandomInt_hangs_at_2pow32` on a concrete draw
stream. -/
theorem getCryptoRandomInt_hangs_witness :
    (∀ u ∈ [0, 123456, 4294967295], u < 2 ^ 32)
    ∧ getCryptoRandomInt (some (.finite 0)) (some (.finite 4294967295))
        [0, 123456, 4294967295] = none :=
  ⟨by decide,
   getCryptoRandomInt_hangs_at_2pow32.2.2 [0, 123456, 4294967295] (by decide)⟩

/-- Claim C10: `isNumeric` accepts the bare minus sign: `isNumeric("-")` is
true under the default options and under `isInteger`, although only `"."`
and `"-."` are explicitly rejected; under `notNegative` it is false.  The
option record fields are `(notNegative, isInteger, allowEmpty)`. -/
theorem isNumeric_bare_minus :
    isNumericStr "-" ⟨false, false, false⟩ = true
    ∧ isNumericStr "-" ⟨false, true, false⟩ = true
    ∧ isNumericStr "-" ⟨true, false, false⟩ = false
    ∧ isNumericStr "." ⟨false, false, false⟩ = false
    ∧ isNumericStr "-." ⟨false, false, false⟩ = false := by
  decide

/-! ## Pastel color claims -/

/-- Any successful run of the selection loop (started with a duplicate-free
accumulator no longer than the requested count) yields exactly `count`
pairwise-distinct indices. -/
theorem selectIndices_some (count : ℕ) :
    ∀ (draws acc l : List (Fin pastelColors.length)),
      selectIndices count draws acc = some l →
      acc.Nodup → acc.length ≤ count →
      l.length = count ∧ l.Nodup := by
  intro draws
  induction draws with
  | nil =>
    intro acc l h hnd hlen
    rw [selectIndices] at h
    split at h
    · rename_i hc
      injection h with h2
      subst h2
      exact ⟨by omega, hnd⟩
    · exact absurd h (by simp)
  | cons d rest ih =>
    intro acc l h hnd hlen
    by_cases hc : count ≤ acc.length
    · rw [selectIndices, if_pos hc] at h
      injection h with h2
      subst h2
      exact ⟨by omega, hnd⟩
    · rw [selectIndices, if_neg hc] at h
      by_cases hd : d ∈ acc
      · rw [if_pos hd] at h
        exact ih acc l h hnd (by omega)
      · rw [if_neg hd] at h
        refine ih (acc ++ [d]) l h ?_ ?_
        · simp [List.nodup_append, hnd, hd]
        · simp only [List.length_append, List.length_singleton]
          omega

/-- With a duplicate-free draw stream long enough, the selection loop
completes. -/
theorem selectIndices_isSome (count : ℕ) :
    ∀ draws acc : List (Fin pastelColors.length), draws.Nodup →
      (∀ d ∈ draws, d ∉ acc) → count ≤ acc.length + draws.length →
      (selectIndices count draws acc).isSome := by
  intro draws
  induction draws with
  | nil =>
    intro acc hnd hdis hlen
    rw [selectIndices, if_pos (by simpa using hlen)]
    rfl
  | cons d rest ih =>
    intro acc hnd hdis hlen
    by_cases hc : count ≤ acc.length
    · rw [selectIndices, if_pos hc]
      rfl
    · rw [selectIndices, if_neg hc]
      rw [if_neg (hdis d (by simp))]
      refine ih (acc ++ [d]) (List.nodup_cons.1 hnd).2 ?_ ?_
      · intro e he hmem
        rcases List.mem_append.1 hmem with h1 | h1
        · exact hdis e (by simp [he]) h1
        · rw [List.mem_singleton] at h1
          subst h1
          exact (List.nodup_cons.1 hnd).1 he
      · simp only [List.length_append, List.length_singleton, List.length_cons] at hlen ⊢
        omega

theorem pastelColors_nodup : pastelColors.Nodup := by decide

theorem pastelColorsLength_eq : pastelColorsLength = 45 := rfl

/-- The sanitized count of an in-range natural number is that number. -/
theorem pastelCount_nat (n : ℕ) (h1 : 1 ≤ n) (h44 : n ≤ pastelColorsLength) :
    pastelCount (.finite (n : ℚ)) = n := by
  have h44n : n ≤ 45 := by rw [pastelColorsLength_eq] at h44; omega
  have hnum : isNumericNumber (.finite (n : ℚ)) = true := by
    simp only [isNumericNumber, decide_eq_true_eq]
    right
    constructor
    · rw [abs_of_nonneg (by positivity)]
      calc (1 : ℚ) / 1000000 ≤ 1 := by norm_num
        _ ≤ (n : ℚ) := by exact_mod_cast h1
    · rw [abs_of_nonneg (by positivity)]
      calc (n : ℚ) ≤ 45 := by exact_mod_cast h44n
        _ < 10 ^ 21 := by norm_num
  simp only [pastelCount, hnum, if_true, jsFloor, Int.floor_natCast]
  rw [pastelColorsLength_eq]
  omega

/-- Claim C9: for every `n` in `[1, pastelColorsLength]`,
`getRandomPastelColors(n)` returns exactly `n` pairwise-distinct members of
the fixed palette (and such a run exists); a numeric count outside the range
is floored and clamped into `[1, pastelColorsLength]`; non-numeric input
(`NaN`, the infinities — `isNumeric` is false on them) draws the entire
palette: 45 distinct colors covering every palette member. -/
theorem getRandomPastelColors_spec :
    pastelColorsLength = 45
    ∧ (∀ n : ℕ, 1 ≤ n → n ≤ pastelColorsLength →
        pastelCount (.finite (n : ℚ)) = n
        ∧ (∀ draws l, getRandomPastelColors (.finite (n : ℚ)) draws = some l →
            l.length = n ∧ l.Nodup ∧ ∀ c ∈ l, c ∈ pastelColors)
        ∧ ∃ draws, (getRandomPastelColors (.finite (n : ℚ)) draws).isSome)
    ∧ (∀ q : ℚ, isNumericNumber (.finite q) = true →
        pastelCount (.finite q) = (min (max (jsFloor q) 1) (pastelColorsLength : ℤ)).toNat
        ∧ 1 ≤ pastelCount (.finite q) ∧ pastelCount (.finite q) ≤ pastelColorsLength)
    ∧ (pastelCount .nan = pastelColorsLength
        ∧ ∀ draws l, getRandomPastelColors .nan draws = some l →
            l.length = pastelColorsLength ∧ l.Nodup ∧ ∀ c ∈ pastelColors, c ∈ l) := by
  have hinj : Function.Injective pastelColors.get :=
    List.nodup_iff_injective_get.1 pastelColors_nodup
  have hrun : ∀ (x : JSNum) (draws : List (Fin pastelColors.length))
      (l : List String), getRandomPastelColors x draws = some l →
      ∃ idxs : List (Fin pastelColors.length),
        selectIndices (pastelCount x) draws [] = some idxs
        ∧ l = idxs.map pastelColors.get := by
    intro x draws l h
    simp only [getRandomPastelColors, Option.map_eq_some'] at h
    obtain ⟨idxs, h1, h2⟩ := h
    exact ⟨idxs, h1, h2.symm⟩
  refine ⟨rfl, ?_, ?_, ?_⟩
  · intro n hn1 hn44
    refine ⟨pastelCount_nat n hn1 hn44, ?_, ?_⟩
    · intro draws l h
      obtain ⟨idxs, hsel, rfl⟩ := hrun _ draws l h
      obtain ⟨hlen, hnd⟩ := selectIndices_some _ draws [] idxs hsel (by simp) (by simp)
      rw [pastelCount_nat n hn1 hn44] at hlen
      refine ⟨by simp [hlen], hnd.map hinj, ?_⟩
      intro c hc
      obtain ⟨i, hi, rfl⟩ := List.mem_map.1 hc
      exact List.get_mem pastelColors i.1 i.2
    · refine ⟨List.finRange pastelColors.length, ?_⟩
      have hsome : (selectIndices (pastelCount (.finite (n : ℚ)))
          (List.finRange pastelColors.length) []).isSome := by
        refine selectIndices_isSome _ _ [] (List.nodup_finRange _) (by simp) ?_
        rw [pastelCount_nat n hn1 hn44]
        simp only [List.length_nil, List.length_finRange]
        rw [pastelColorsLength_eq] at hn44
        rw [show pastelColors.length = 45 from rfl]
        omega
      obtain ⟨idxs, hidxs⟩ := Option.isSome_iff_exists.1 hsome
      simp [getRandomPastelColors, hidxs]
  · intro q hq
    have h1 : pastelCount (.finite q)
        = (min (max (jsFloor q) 1) (pastelColorsLength : ℤ)).toNat := by
      simp [pastelCount, hq]
    refine ⟨h1, ?_, ?_⟩ <;> rw [h1] <;> rw [pastelColorsLength_eq] <;> omega
  · refine ⟨rfl, ?_⟩
    intro draws l h
    obtain ⟨idxs, hsel, rfl⟩ := hrun _ draws l h
    obtain ⟨hlen, hnd⟩ := selectIndices_some _ draws [] idxs hsel (by simp) (by simp)
    have hlen44 : idxs.length = pastelColors.length := by
      rw [hlen]
      rfl
    have hall : ∀ i : Fin pastelColors.length, i ∈ idxs := by
      have h1 : idxs.toFinset.card = pastelColors.length := by
        rw [List.toFinset_card_of_nodup hnd, hlen44]
      have h2 : idxs.toFinset = Finset.univ :=
        Finset.eq_univ_of_card _ (by rw [h1]; simp)
      intro i
      have h3 := Finset.mem_univ i
      rw [← h2] at h3
      exact List.mem_toFinset.1 h3
    refine ⟨by simpa [pastelColorsLength] using hlen44, hnd.map hinj, ?_⟩
    intro c hc
    obtain ⟨i, hi⟩ := List.mem_iff_get.1 hc
    exact List.mem_map.2 ⟨i, hall i, hi⟩

/-- Witness for `getRandomPastelColors_spec` at `n = 3`. -/
theorem getRandomPastelColors_spec_witness :
    pastelCount (.finite ((3 : ℕ) : ℚ)) = 3
    ∧ ∃ draws, (getRandomPastelColors (.finite ((3 : ℕ) : ℚ)) draws).isSome :=
  ⟨(getRandomPastelColors_spec.2.1 3 (by decide) (by decide)).1,
   (getRandomPastelColors_spec.2.1 3 (by decide) (by decide)).2.2⟩

/-! ## Query-string claims -/

/-- Claim C7 (counterexample): an object whose only property holds `null`
has an enumerable property, yet the function returns the empty string — not
a string led by the claimed question mark. -/
theorem urlQueryStringFromObject_all_skipped :
    urlQueryStringFromObject (.obj [("a", .null)]) = ""
    ∧ ("" : String) ≠ "?" ∧ ("" : String).startsWith "?" = false := by
  refine ⟨?_, by decide, by decide⟩
  simp [urlQueryStringFromObject, urlQueryTopParts, buildQuery]

/-- Claim C7 (amended): the empty string is returned for a non-plain-object
input, for an object with no enumerable properties, and also whenever every
property is skipped so that no part is emitted; otherwise the result is `?`
followed by the `&`-joined parts in key enumeration order.  Null, undefined,
function, symbol, `NaN` and infinite values contribute no part at all, and
the documented example evaluates as claimed. -/
theorem urlQueryStringFromObject_spec :
    (∀ v : JsValue, isPlainObjectB v = false → urlQueryStringFromObject v = "")
    ∧ urlQueryStringFromObject (.obj []) = ""
    ∧ (∀ fields, fields ≠ [] → urlQueryTopParts fields ≠ [] →
        urlQueryStringFromObject (.obj fields)
          = "?" ++ String.intercalate "&" (urlQueryTopParts fields))
    ∧ (∀ fields, fields ≠ [] → urlQueryTopParts fields = [] →
        urlQueryStringFromObject (.obj fields) = "")
    ∧ (∀ keyPath, buildQuery keyPath .null = [] ∧ buildQuery keyPath .undef = []
        ∧ buildQuery keyPath .func = [] ∧ buildQuery keyPath .symbol = []
        ∧ buildQuery keyPath .nan = [] ∧ buildQuery keyPath .infinity = []
        ∧ buildQuery keyPath .negInfinity = [])
    ∧ urlQueryStringFromObject
        (.obj [("page", .num 1), ("tags", .arr [.str "a", .str "b"])])
        = "?page=1&tags[]=a&tags[]=b" := by
  refine ⟨?_, rfl, ?_, ?_, ?_, ?_⟩
  · intro v hv
    cases v <;> first | rfl | simp [isPlainObjectB] at hv
  · intro fields h1 h2
    have hlen : fields.length ≠ 0 := by simpa [List.length_eq_zero] using h1
    have hp : (urlQueryTopParts fields).length ≠ 0 := by
      simpa [List.length_eq_zero] using h2
    simp [urlQueryStringFromObject, hlen, hp]
  · intro fields h1 h2
    have hlen : fields.length ≠ 0 := by simpa [List.length_eq_zero] using h1
    simp [urlQueryStringFromObject, hlen, h2]
  · intro keyPath
    refine ⟨?_, ?_, ?_, ?_, ?_, ?_, ?_⟩ <;> simp [buildQuery]
  · simp +decide [urlQueryStringFromObject, urlQueryTopParts, buildQuery, buildQueryArr,
      encodeURIComponent, jsIntToString, intToChars, natToChars, digitChar,
      isUriUnreserved, String.intercalate]

/-- Witness for `urlQueryStringFromObject_spec` at a one-property object. -/
theorem urlQueryStringFromObject_spec_witness :
    urlQueryStringFromObject (.obj [("page", JsValue.num 1)])
      = "?" ++ String.intercalate "&" (urlQueryTopParts [("page", JsValue.num 1)]) :=
  urlQueryStringFromObject_spec.2.2.1 [("page", JsValue.num 1)] (by simp)
    (by simp [urlQueryTopParts, buildQuery])

end Chan180
